import Mathlib

/-!
# Bloom filter (asadmshah/bloomfilter): embedding and verification

Shallow embedding of `helpers.go` (the packed bit vector `BitSet`) and
`bloomfilter.go` (the filter, its sizing formulas and the double-hashing
probe loops).

Conventions of the embedding

* Go `uint` is the 64-bit unsigned integer; its arithmetic is written on `Nat`
  with an explicit `% 2 ^ 64` after every `+` and `*` that can wrap.
  `uint8` values are `Nat` with an explicit `% 256`.
* A run-time panic of the Go program (slice index out of range, integer
  division by zero, `len out of range` of `make`) is an `Except.error`; a
  normal return is `Except.ok`.
* The `float64` fields `m`, `k`, `p`, `n` are idealised as real numbers:
  `math.Log` is `Real.log`, `math.Ceil` followed by the conversion to `uint`
  is the natural-number ceiling.  Rounding of `float64` arithmetic is outside
  the model.  The conversion `float64(x)` of an unsigned integer in `SetK` and
  `SetM` is modelled with its rounding (`float64OfUint`).
* `Clear` is the allocation for a ceiling of `m / 8` that is not negative (the
  natural-number ceiling is `0` between `-1` and `0`, as `uint(-0.0)` is);
  `ClearResult`, `SetKResult`, `SetMResult` and `NewBloomFilterResult` add the
  panic of `make` for a negative ceiling and for a length above the largest
  one the platform allocates (a parameter).
* `hash/fnv` (`New64a`) and `encoding/binary` are Go standard library code;
  they are written out here from their published definition (FNV-1a, 64 bit;
  big-endian decoding).
-/

namespace Bloomfilter

/-! ## Run-time panics -/

/-- The run-time panics of the program: a slice index out of range and an
integer division by zero in the probe loops, and the `len out of range` panic
of `make` in the allocation of the bit vector. -/
inductive Panic where
  | indexOutOfRange
  | divideByZero
  | lenOutOfRange
  deriving DecidableEq, Repr

deriving instance DecidableEq for Except

/-! ## helpers.go : BitSet -/

/-- `type BitSet []uint8`: a slice of bytes, each entry a `uint8` value. -/
abbrev BitSet := List Nat

/-- `NewBitSet(n)`: `make([]uint8, n)`, that is `n` zero bytes. -/
def NewBitSet (n : Nat) : BitSet := List.replicate n 0

/-- `BitSet.Set(x)`: `self[x / 8] |= (1 << uint8(x % 8))`; the slice access
panics when `x / 8` is not below the length. -/
def BitSet.Set (self : BitSet) (x : Nat) : Except Panic BitSet :=
  if h : x / 8 < self.length then
    .ok (self.set (x / 8) ((self[x / 8] ||| ((1 <<< (x % 8)) % 256)) % 256))
  else
    .error .indexOutOfRange

/-- `BitSet.Get(x)`: `var m uint8 = 1 << uint8(x % 8); return self[x / 8] & m == m`. -/
def BitSet.Get (self : BitSet) (x : Nat) : Except Panic Bool :=
  let m := (1 <<< (x % 8)) % 256
  if h : x / 8 < self.length then
    .ok (self[x / 8] &&& m == m)
  else
    .error .indexOutOfRange

/-! ## hash/fnv and encoding/binary (standard library) -/

/-- FNV-1a 64-bit offset basis. -/
def fnvOffset64 : Nat := 14695981039346656037

/-- FNV-1a 64-bit prime. -/
def fnvPrime64 : Nat := 1099511628211

/-- `Write` of `fnv.New64a`: for every byte, xor it into the state and multiply
by the prime, in 64-bit arithmetic. -/
def fnvWrite (h : Nat) (data : List UInt8) : Nat :=
  data.foldl (fun s c => ((s ^^^ c.toNat) * fnvPrime64) % 2 ^ 64) h

/-- `Sum(nil)` of `fnv.New64a`: the eight bytes of the state, most significant first. -/
def fnvSum (h : Nat) : List Nat :=
  [h / 2 ^ 56 % 256, h / 2 ^ 48 % 256, h / 2 ^ 40 % 256, h / 2 ^ 32 % 256,
   h / 2 ^ 24 % 256, h / 2 ^ 16 % 256, h / 2 ^ 8 % 256, h % 256]

/-- `binary.BigEndian.Uint32` applied to the four bytes starting at offset `o`. -/
def bigEndianUint32 (bs : List Nat) (o : Nat) : Nat :=
  bs.getD o 0 * 2 ^ 24 + bs.getD (o + 1) 0 * 2 ^ 16 + bs.getD (o + 2) 0 * 2 ^ 8
    + bs.getD (o + 3) 0

/-! ## Conversion of unsigned integers to float64 -/

/-- The number of low bits that do not fit a 53-bit significand: the least `e`
with `x / 2^e < 2^53` (the first argument bounds the recursion). -/
def dropBits : Nat → Nat → Nat
  | 0, _ => 0
  | fuel + 1, x => if x < 2 ^ 53 then 0 else dropBits fuel (x / 2) + 1

/-- The conversion `float64(x)` of an unsigned integer: exact below `2^53`,
otherwise rounded to 53 significant bits, to nearest with ties to the even
significand (IEEE 754 binary64). The result is again an integer. -/
def float64OfUint (x : Nat) : Nat :=
  if x < 2 ^ 53 then x
  else
    let e := dropBits x x
    let q := x / 2 ^ e
    let r := x % 2 ^ e
    let h := 2 ^ (e - 1)
    if r < h then q * 2 ^ e
    else if h < r then (q + 1) * 2 ^ e
    else if q % 2 = 0 then q * 2 ^ e
    else (q + 1) * 2 ^ e

/-! ## The probe loops of Add and Has -/

/-- The loop body's index `x = (a + b * i) % m` in `uint` arithmetic; the
remainder panics when `m` is zero. -/
def probe (a b m i : Nat) : Except Panic Nat :=
  if m = 0 then .error .divideByZero
  else .ok (((a + (b * i) % 2 ^ 64) % 2 ^ 64) % m)

/-- The loop of `Add`: `for i := uint(0); i < K; i++ { x = (a + b*i) % m; b.Set(x) }`,
written with the number of iterations still to run, `r = K - i`. -/
def addLoop (a b m : Nat) : Nat → Nat → BitSet → Except Panic BitSet
  | 0, _, bs => .ok bs
  | r + 1, i, bs => do
      let x ← probe a b m i
      let bs1 ← bs.Set x
      addLoop a b m r (i + 1) bs1

/-- The loop of `Has`: returns `false` at the first unset probe, `true` when
the loop ends. -/
def hasLoop (a b m : Nat) : Nat → Nat → BitSet → Except Panic Bool
  | 0, _, _ => .ok true
  | r + 1, i, bs => do
      let x ← probe a b m i
      let v ← bs.Get x
      if !v then .ok false else hasLoop a b m r (i + 1) bs

/-! ## bloomfilter.go : the filter -/

/-- `type BloomFilter struct`: the four `float64` fields, the bit vector and
the state of the reusable `hash.Hash64` (the 64-bit FNV-1a accumulator). -/
structure BloomFilter where
  m : ℝ
  k : ℝ
  p : ℝ
  n : ℝ
  b : BitSet
  H : Nat

namespace BloomFilter

/-- `CalculateM`: `-self.n * math.Log(self.p) / math.Pow(math.Log(2.0), 2.0)`. -/
noncomputable def CalculateM (self : BloomFilter) : ℝ :=
  -self.n * Real.log self.p / (Real.log 2) ^ (2 : ℝ)

/-- `CalculateK`: `self.m / self.n * math.Log(2.0)`. -/
noncomputable def CalculateK (self : BloomFilter) : ℝ :=
  self.m / self.n * Real.log 2

/-- `CalculateP`: `math.Pow(1.0 - math.Pow(math.E, (-self.k * self.n / self.m)), self.k)`. -/
noncomputable def CalculateP (self : BloomFilter) : ℝ :=
  (1 - (Real.exp 1) ^ (-self.k * self.n / self.m)) ^ self.k

/-- `K`: `uint(math.Ceil(self.k))`. -/
noncomputable def K (self : BloomFilter) : Nat := ⌈self.k⌉₊

/-- `M`: `uint(math.Ceil(self.m))`. -/
noncomputable def M (self : BloomFilter) : Nat := ⌈self.m⌉₊

/-- `Clear`: `self.b = NewBitSet(uint(math.Ceil(self.m / 8.0)))`, for a ceiling
that is not negative (`ClearResult` below covers the negative one). -/
noncomputable def Clear (self : BloomFilter) : BloomFilter :=
  { self with b := NewBitSet ⌈self.m / 8⌉₊ }

/-- `hash`: reset the hash state, write the member, read the eight digest
bytes and split them into the two big-endian 32-bit halves.  Returns the pair
and the filter with the hash state left behind by the call. -/
def hash (self : BloomFilter) (member : List UInt8) : (Nat × Nat) × BloomFilter :=
  let s := fnvWrite fnvOffset64 member
  let h := fnvSum s
  ((bigEndianUint32 h 0, bigEndianUint32 h 4), { self with H := s })

/-- `Add`: hash the member, then set the `K()` probe bits. -/
noncomputable def Add (self : BloomFilter) (member : List UInt8) : Except Panic BloomFilter :=
  let r := self.hash member
  let a := r.1.1
  let b := r.1.2
  let m := r.2.M
  do
    let bs ← addLoop a b m r.2.K 0 r.2.b
    pure { r.2 with b := bs }

/-- `Has`: hash the member, then test the `K()` probe bits.  Returns the answer
and the filter (whose hash state the call has changed). -/
noncomputable def Has (self : BloomFilter) (member : List UInt8) :
    Except Panic (Bool × BloomFilter) :=
  let r := self.hash member
  let a := r.1.1
  let b := r.1.2
  let m := r.2.M
  do
    let v ← hasLoop a b m r.2.K 0 r.2.b
    pure (v, r.2)

/-- `SetK`: `self.k = float64(k); self.Clear()`; the conversion rounds `k` to
the nearest `float64`. -/
noncomputable def SetK (self : BloomFilter) (k : Nat) : BloomFilter :=
  Clear { self with k := ((float64OfUint k : Nat) : ℝ) }

/-- `SetM`: `self.m = float64(m); self.Clear()`; the conversion rounds `m` to
the nearest `float64`.  (`SetMResult` below adds the failure of the
allocation.) -/
noncomputable def SetM (self : BloomFilter) (m : Nat) : BloomFilter :=
  Clear { self with m := ((float64OfUint m : Nat) : ℝ) }

end BloomFilter

/-- `NewBloomFilter(n, p)`: start from the zero value of the struct, assign
`n`, `p`, then `m`, then `k`, install a fresh FNV-1a state and `Clear`. -/
noncomputable def NewBloomFilter (n : Int) (p : ℝ) : BloomFilter :=
  let f0 : BloomFilter := { m := 0, k := 0, p := 0, n := 0, b := [], H := 0 }
  let f1 := { f0 with n := (n : ℝ) }
  let f2 := { f1 with p := p }
  let f3 := { f2 with m := f2.CalculateM }
  let f4 := { f3 with k := f3.CalculateK }
  let f5 := { f4 with H := fnvOffset64 }
  f5.Clear

/-- Add the members of a list one after the other; a panic stops the run. -/
noncomputable def AddAll : BloomFilter → List (List UInt8) → Except Panic BloomFilter
  | f, [] => .ok f
  | f, x :: xs => do
      let g ← f.Add x
      AddAll g xs

/-! ## Reading the bit vector -/

/-- The bit of the vector at absolute index `x` (false beyond the last byte). -/
def bitAt (bs : BitSet) (x : Nat) : Bool := (bs.getD (x / 8) 0).testBit (x % 8)

/-- The value of the loop index expression when the modulus is not zero. -/
def probeIndex (a b m i : Nat) : Nat := ((a + (b * i) % 2 ^ 64) % 2 ^ 64) % m

/-- The length invariant of the bit vector: it has the size `Clear` gives it
for the current `m`. -/
def WellFormed (f : BloomFilter) : Prop := f.b.length = ⌈f.m / 8⌉₊

/-- The filters a caller can reach: built by `NewBloomFilter(n, p)` with
`n ≥ 1` and `0 < p < 1`, then any sequence of `Add`, `Has`, `Clear`,
`SetK(k)` with `k ≥ 1` and `SetM(m)` with `m ≥ 1` that returned normally. -/
inductive Reachable : BloomFilter → Prop where
  | new (n : Int) (p : ℝ) (hn : 1 ≤ n) (hp0 : 0 < p) (hp1 : p < 1) :
      Reachable (NewBloomFilter n p)
  | add (f g : BloomFilter) (member : List UInt8) (hf : Reachable f)
      (h : f.Add member = .ok g) : Reachable g
  | has (f g : BloomFilter) (member : List UInt8) (v : Bool) (hf : Reachable f)
      (h : f.Has member = .ok (v, g)) : Reachable g
  | clear (f : BloomFilter) (hf : Reachable f) : Reachable f.Clear
  | setK (f : BloomFilter) (k : Nat) (hf : Reachable f) (hk : 1 ≤ k) : Reachable (f.SetK k)
  | setM (f : BloomFilter) (m : Nat) (hf : Reachable f) (hm : 1 ≤ m) : Reachable (f.SetM m)

/-- A reachable filter with a small bit count and more than 2^32 probes per
operation: `NewBloomFilter(1, 0.5)`, then `SetM(11)`, then `SetK(8204913969)`. -/
noncomputable def wrapFilter : BloomFilter :=
  ((NewBloomFilter 1 (1 / 2)).SetM 11).SetK 8204913969

/-- `Clear` together with its failures. When `math.Ceil(self.m / 8.0)` is `-1`
or below, the conversion to `uint` does not give a byte count (Go leaves the
result to the implementation; the two's complement result of the 64-bit
compilers is `2^63` or more) and `make` panics with `len out of range`. `make`
also refuses a length above `maxLen`, the largest length the run time
allocates (a constant of the platform, taken as a parameter). Otherwise the
call is `Clear`. -/
noncomputable def BloomFilter.ClearResult (maxLen : Nat) (self : BloomFilter) :
    Except Panic BloomFilter :=
  if self.m / 8 ≤ -1 then .error .lenOutOfRange
  else if maxLen < ⌈self.m / 8⌉₊ then .error .lenOutOfRange
  else .ok self.Clear

/-- The outcomes of a call of the constructor: the `InvalidParameter` failure
a caller is told to expect, a run-time panic, or a constructed filter. -/
inductive ConstructResult where
  | invalidParameter
  | panicked (e : Panic)
  | constructed (f : BloomFilter)

/-- The outcome of `NewBloomFilter(n, p)`: the same assignments as
`NewBloomFilter`, ending in the `Clear` that can panic.  The body has no test
of `n` or `p`, so no branch gives `invalidParameter`. -/
noncomputable def NewBloomFilterResult (maxLen : Nat) (n : Int) (p : ℝ) : ConstructResult :=
  let f0 : BloomFilter := { m := 0, k := 0, p := 0, n := 0, b := [], H := 0 }
  let f1 := { f0 with n := (n : ℝ) }
  let f2 := { f1 with p := p }
  let f3 := { f2 with m := f2.CalculateM }
  let f4 := { f3 with k := f3.CalculateK }
  let f5 := { f4 with H := fnvOffset64 }
  match f5.ClearResult maxLen with
  | .ok f => .constructed f
  | .error e => .panicked e

/-- The filter `NewBloomFilter(10, 0.1)` whose reusable hash state holds the
digest of some earlier input instead of the initial state. -/
noncomputable def otherHashState : BloomFilter :=
  { NewBloomFilter 10 (1 / 10) with H := 12345 }

/-- The filters reachable when the overrides are not restricted: built by
`NewBloomFilter(n, p)` with `n ≥ 1` and `0 < p < 1`, then any sequence of
`Add`, `Has`, `Clear`, `SetK(k)` and `SetM(m)` (any `k`, `m`, zero included)
that returned normally. -/
inductive ReachableAny : BloomFilter → Prop where
  | new (n : Int) (p : ℝ) (hn : 1 ≤ n) (hp0 : 0 < p) (hp1 : p < 1) :
      ReachableAny (NewBloomFilter n p)
  | add (f g : BloomFilter) (member : List UInt8) (hf : ReachableAny f)
      (h : f.Add member = .ok g) : ReachableAny g
  | has (f g : BloomFilter) (member : List UInt8) (v : Bool) (hf : ReachableAny f)
      (h : f.Has member = .ok (v, g)) : ReachableAny g
  | clear (f : BloomFilter) (hf : ReachableAny f) : ReachableAny f.Clear
  | setK (f : BloomFilter) (k : Nat) (hf : ReachableAny f) : ReachableAny (f.SetK k)
  | setM (f : BloomFilter) (m : Nat) (hf : ReachableAny f) : ReachableAny (f.SetM m)

/-- The update of `BitSet.Set` without the bounds check: the byte `x / 8`
receives its old value or-ed with the mask of bit `x % 8`. -/
def setRaw (bs : BitSet) (x : Nat) : BitSet :=
  bs.set (x / 8) ((bs.getD (x / 8) 0 ||| ((1 <<< (x % 8)) % 256)) % 256)

/-- The probe indices of one `Add` or `Has`, in loop order. -/
def probes (a b m k : Nat) : List Nat := (List.range' 0 k).map (probeIndex a b m)

/-- The probe indices of `member` on the filter `f`. -/
noncomputable def memberProbes (f : BloomFilter) (member : List UInt8) : List Nat :=
  probes (f.hash member).1.1 (f.hash member).1.2 f.M f.K

theorem and_two_pow_eq_iff (v i : Nat) : v &&& 2 ^ i = 2 ^ i ↔ v.testBit i = true := by
  constructor
  · intro h
    have h1 := congrArg (fun w => Nat.testBit w i) h
    simpa [Nat.testBit_two_pow_self] using h1
  · intro h
    apply Nat.eq_of_testBit_eq
    intro j
    rw [Nat.testBit_and, Nat.testBit_two_pow]
    by_cases hij : i = j
    · subst hij; simp [h]
    · simp [hij]

theorem shift_mod_byte (x : Nat) : (1 <<< (x % 8)) % 256 = 2 ^ (x % 8) := by
  rw [Nat.one_shiftLeft]
  apply Nat.mod_eq_of_lt
  have h8 : x % 8 < 8 := Nat.mod_lt _ (by decide)
  calc 2 ^ (x % 8) < 2 ^ 8 := Nat.pow_lt_pow_right (by decide) h8
    _ = 256 := by norm_num

theorem Get_eq_bitAt (bs : BitSet) (x : Nat) (h : x / 8 < bs.length) :
    bs.Get x = .ok (bitAt bs x) := by
  unfold BitSet.Get bitAt
  simp only [h, dite_true, shift_mod_byte]
  congr 1
  rw [List.getD_eq_getElem bs 0 h]
  rw [Bool.eq_iff_iff, beq_iff_eq, and_two_pow_eq_iff]

theorem index_eq_iff (x y : Nat) : y = x ↔ y / 8 = x / 8 ∧ y % 8 = x % 8 := by
  omega

theorem Set_spec (bs : BitSet) (x : Nat) (h : x / 8 < bs.length) :
    ∃ bs1, bs.Set x = .ok bs1 ∧ bs1.length = bs.length ∧
      ∀ y, bitAt bs1 y = (decide (y = x) || bitAt bs y) := by
  refine ⟨bs.set (x / 8) ((bs[x / 8] ||| ((1 <<< (x % 8)) % 256)) % 256), ?_, ?_, ?_⟩
  · unfold BitSet.Set
    simp only [h, dite_true]
  · simp
  · intro y
    have hy8 : y % 8 < 8 := Nat.mod_lt _ (by decide)
    unfold bitAt
    rw [shift_mod_byte]
    by_cases hq : y / 8 = x / 8
    · rw [hq, List.getD_eq_getElem _ 0 (by simpa using h), List.getD_eq_getElem bs 0 h]
      simp only [List.getElem_set_self]
      have h256 : (256 : Nat) = 2 ^ 8 := by norm_num
      rw [h256, Nat.testBit_mod_two_pow, Nat.testBit_or, Nat.testBit_two_pow]
      simp only [hy8, decide_True, Bool.true_and]
      by_cases hr : y % 8 = x % 8
      · have hyx : y = x := (index_eq_iff x y).2 ⟨hq, hr⟩
        simp [hyx]
      · have hyx : ¬ y = x := fun e => hr (by rw [e])
        have hr2 : ¬ x % 8 = y % 8 := fun e => hr e.symm
        simp [hyx, hr2]
    · have hyx : ¬ y = x := fun e => hq (by rw [e])
      have hq2 : ¬ x / 8 = y / 8 := fun e => hq e.symm
      simp only [hyx, decide_False, Bool.false_or]
      simp only [List.getD_eq_getElem?_getD]
      rw [List.getElem?_set_ne hq2]

/-! ## The probe loops -/

theorem probe_eq (a b m i : Nat) (hm : m ≠ 0) : probe a b m i = .ok (probeIndex a b m i) := by
  unfold probe probeIndex
  simp [hm]

theorem probeIndex_lt (a b m i : Nat) (hm : m ≠ 0) : probeIndex a b m i < m :=
  Nat.mod_lt _ (Nat.pos_of_ne_zero hm)

theorem index_in_range (bs : BitSet) (m x : Nat) (hlen : m ≤ 8 * bs.length) (hx : x < m) :
    x / 8 < bs.length := by
  omega

theorem addLoop_spec (a b m : Nat) (hm : m ≠ 0) :
    ∀ (r i : Nat) (bs : BitSet), m ≤ 8 * bs.length →
      ∃ bs1, addLoop a b m r i bs = .ok bs1 ∧ bs1.length = bs.length ∧
        ∀ y, bitAt bs1 y = true ↔
          (bitAt bs y = true ∨ ∃ t, i ≤ t ∧ t < i + r ∧ y = probeIndex a b m t) := by
  intro r
  induction r with
  | zero =>
    intro i bs _
    refine ⟨bs, rfl, rfl, ?_⟩
    intro y
    constructor
    · intro h; exact Or.inl h
    · rintro (h | ⟨t, h1, h2, _⟩)
      · exact h
      · omega
  | succ r ih =>
    intro i bs hlen
    have hx : probeIndex a b m i / 8 < bs.length :=
      index_in_range bs m _ hlen (probeIndex_lt a b m i hm)
    obtain ⟨bs1, hset, hlen1, hbits1⟩ := Set_spec bs (probeIndex a b m i) hx
    obtain ⟨bs2, hloop, hlen2, hbits2⟩ := ih (i + 1) bs1 (by rw [hlen1]; exact hlen)
    refine ⟨bs2, ?_, by rw [hlen2, hlen1], ?_⟩
    · simp only [addLoop, probe_eq a b m i hm, hset, bind, Except.bind]
      exact hloop
    · intro y
      rw [hbits2 y, hbits1 y]
      simp only [Bool.or_eq_true, decide_eq_true_eq]
      constructor
      · rintro ((h | h) | ⟨t, h1, h2, h3⟩)
        · exact Or.inr ⟨i, le_refl i, by omega, h⟩
        · exact Or.inl h
        · exact Or.inr ⟨t, by omega, by omega, h3⟩
      · rintro (h | ⟨t, h1, h2, h3⟩)
        · exact Or.inl (Or.inr h)
        · by_cases hti : t = i
          · subst hti; exact Or.inl (Or.inl h3)
          · exact Or.inr ⟨t, by omega, by omega, h3⟩

theorem hasLoop_spec (a b m : Nat) (hm : m ≠ 0) (bs : BitSet) (hlen : m ≤ 8 * bs.length) :
    ∀ (r i : Nat), ∃ v, hasLoop a b m r i bs = .ok v ∧
      (v = true ↔ ∀ t, i ≤ t → t < i + r → bitAt bs (probeIndex a b m t) = true) := by
  intro r
  induction r with
  | zero =>
    intro i
    refine ⟨true, rfl, ?_⟩
    simp only [true_iff]
    intro t h1 h2
    omega
  | succ r ih =>
    intro i
    have hx : probeIndex a b m i / 8 < bs.length :=
      index_in_range bs m _ hlen (probeIndex_lt a b m i hm)
    obtain ⟨v, hv, hiff⟩ := ih (i + 1)
    cases hbit : bitAt bs (probeIndex a b m i) with
    | false =>
      refine ⟨false, ?_, ?_⟩
      · simp [hasLoop, probe_eq a b m i hm, Get_eq_bitAt bs _ hx, hbit, bind, Except.bind]
      · constructor
        · intro h; cases h
        · intro h
          have := h i (le_refl i) (by omega)
          rw [hbit] at this
          cases this
    | true =>
      refine ⟨v, ?_, ?_⟩
      · simp only [hasLoop, probe_eq a b m i hm, Get_eq_bitAt bs _ hx, hbit, bind, Except.bind]
        simpa using hv
      · rw [hiff]
        constructor
        · intro h t h1 h2
          by_cases hti : t = i
          · subst hti; exact hbit
          · exact h t (by omega) (by omega)
        · intro h t h1 h2
          exact h t (by omega) (by omega)

/-! ## Filter-level lemmas -/

theorem M_le_bits (f : BloomFilter) (hwf : WellFormed f) : f.M ≤ 8 * f.b.length := by
  unfold WellFormed at hwf
  unfold BloomFilter.M
  rw [hwf, Nat.ceil_le]
  have h1 : f.m / 8 ≤ (⌈f.m / 8⌉₊ : ℝ) := Nat.le_ceil _
  push_cast
  linarith

theorem Clear_wellFormed (f : BloomFilter) : WellFormed f.Clear := by
  simp [WellFormed, BloomFilter.Clear, NewBitSet]

theorem bitAt_NewBitSet (n y : Nat) : bitAt (NewBitSet n) y = false := by
  unfold bitAt NewBitSet
  have h : (List.replicate n 0).getD (y / 8) 0 = 0 := by
    rw [List.getD_eq_getElem?_getD, List.getElem?_replicate]
    split <;> rfl
  rw [h]
  exact Nat.zero_testBit _

theorem Add_spec (f : BloomFilter) (member : List UInt8) (hwf : WellFormed f)
    (hM : 1 ≤ f.M) :
    ∃ bs, f.Add member = .ok { (f.hash member).2 with b := bs } ∧
      bs.length = f.b.length ∧
      ∀ y, bitAt bs y = true ↔
        (bitAt f.b y = true ∨
          ∃ t, t < f.K ∧ y = probeIndex (f.hash member).1.1 (f.hash member).1.2 f.M t) := by
  have hm : f.M ≠ 0 := by omega
  obtain ⟨bs, h1, h2, h3⟩ :=
    addLoop_spec (f.hash member).1.1 (f.hash member).1.2 f.M hm f.K 0 f.b (M_le_bits f hwf)
  refine ⟨bs, ?_, h2, ?_⟩
  · unfold BloomFilter.Add
    have e1 : (f.hash member).2.M = f.M := rfl
    have e2 : (f.hash member).2.K = f.K := rfl
    have e3 : (f.hash member).2.b = f.b := rfl
    simp only [e1, e2, e3, h1, bind, Except.bind, pure, Except.pure]
  · intro y
    rw [h3 y]
    constructor
    · rintro (h | ⟨t, _, ht, hy⟩)
      · exact Or.inl h
      · exact Or.inr ⟨t, by omega, hy⟩
    · rintro (h | ⟨t, ht, hy⟩)
      · exact Or.inl h
      · exact Or.inr ⟨t, Nat.zero_le t, by omega, hy⟩

theorem Has_spec (f : BloomFilter) (member : List UInt8) (hwf : WellFormed f)
    (hM : 1 ≤ f.M) :
    ∃ v, f.Has member = .ok (v, (f.hash member).2) ∧
      (v = true ↔ ∀ t, t < f.K →
        bitAt f.b (probeIndex (f.hash member).1.1 (f.hash member).1.2 f.M t) = true) := by
  have hm : f.M ≠ 0 := by omega
  obtain ⟨v, h1, h2⟩ :=
    hasLoop_spec (f.hash member).1.1 (f.hash member).1.2 f.M hm f.b (M_le_bits f hwf) f.K 0
  refine ⟨v, ?_, ?_⟩
  · unfold BloomFilter.Has
    have e1 : (f.hash member).2.M = f.M := rfl
    have e2 : (f.hash member).2.K = f.K := rfl
    have e3 : (f.hash member).2.b = f.b := rfl
    simp only [e1, e2, e3, h1, bind, Except.bind, pure, Except.pure]
  · rw [h2]
    constructor
    · intro h t ht
      exact h t (Nat.zero_le t) (by omega)
    · intro h t _ ht
      exact h t (by omega)

/-! ## Sizing lemmas -/

theorem NewBloomFilter_m (n : Int) (p : ℝ) :
    (NewBloomFilter n p).m = -(n : ℝ) * Real.log p / (Real.log 2) ^ (2 : ℝ) := rfl

theorem NewBloomFilter_k (n : Int) (p : ℝ) :
    (NewBloomFilter n p).k = (NewBloomFilter n p).m / (n : ℝ) * Real.log 2 := rfl

theorem log_two_sq_pos : 0 < (Real.log 2) ^ (2 : ℝ) := by
  have h : 0 < Real.log 2 := Real.log_pos (by norm_num)
  exact Real.rpow_pos_of_pos h 2

theorem NewBloomFilter_m_pos (n : Int) (p : ℝ) (hn : 1 ≤ n) (hp0 : 0 < p) (hp1 : p < 1) :
    0 < (NewBloomFilter n p).m := by
  rw [NewBloomFilter_m]
  have hn1 : (1 : ℝ) ≤ (n : ℝ) := by exact_mod_cast hn
  have hlog : Real.log p < 0 := Real.log_neg hp0 hp1
  apply div_pos _ log_two_sq_pos
  nlinarith

theorem NewBloomFilter_k_pos (n : Int) (p : ℝ) (hn : 1 ≤ n) (hp0 : 0 < p) (hp1 : p < 1) :
    0 < (NewBloomFilter n p).k := by
  rw [NewBloomFilter_k]
  have hn1 : (1 : ℝ) ≤ (n : ℝ) := by exact_mod_cast hn
  have hm := NewBloomFilter_m_pos n p hn hp0 hp1
  have h2 : 0 < Real.log 2 := Real.log_pos (by norm_num)
  exact mul_pos (div_pos hm (by linarith)) h2

theorem dropBits_pow_le (fuel : Nat) : ∀ x : Nat, 1 ≤ x → 2 ^ dropBits fuel x ≤ x := by
  induction fuel with
  | zero => intro x hx; simpa [dropBits] using hx
  | succ fuel ih =>
    intro x hx
    unfold dropBits
    split
    · simpa using hx
    · have h2 : 1 ≤ x / 2 := by
        have : 2 ^ 53 ≤ x := by omega
        have h53 : (2 : Nat) ≤ 2 ^ 53 := by norm_num
        omega
      have := ih (x / 2) h2
      rw [Nat.pow_succ]
      omega

theorem float64OfUint_pos (x : Nat) (h : 1 ≤ x) : 1 ≤ float64OfUint x := by
  unfold float64OfUint
  split
  · exact h
  · have hpow : 2 ^ dropBits x x ≤ x := dropBits_pow_le x x h
    have hpos : 0 < 2 ^ dropBits x x := Nat.pow_pos (by decide)
    have hq : 1 ≤ x / 2 ^ dropBits x x := (Nat.one_le_div_iff hpos).2 hpow
    have h1 : 1 ≤ x / 2 ^ dropBits x x * 2 ^ dropBits x x := Nat.mul_pos hq hpos
    have h2 : 1 ≤ (x / 2 ^ dropBits x x + 1) * 2 ^ dropBits x x :=
      Nat.mul_pos (by omega) hpos
    simp only
    split
    · exact h1
    · split
      · exact h2
      · split
        · exact h1
        · exact h2

theorem SetK_K (f : BloomFilter) (k : Nat) : (f.SetK k).K = float64OfUint k := by
  simp [BloomFilter.SetK, BloomFilter.Clear, BloomFilter.K]

theorem SetM_M (f : BloomFilter) (m : Nat) : (f.SetM m).M = float64OfUint m := by
  simp [BloomFilter.SetM, BloomFilter.Clear, BloomFilter.M]

/-- Every reachable filter has a bit vector of the size `Clear` gives it, and
positive `M()` and `K()`. -/
theorem Reachable_inv (f : BloomFilter) (h : Reachable f) :
    WellFormed f ∧ 1 ≤ f.M ∧ 1 ≤ f.K := by
  induction h with
  | new n p hn hp0 hp1 =>
    refine ⟨Clear_wellFormed _, ?_, ?_⟩
    · exact Nat.ceil_pos.2 (NewBloomFilter_m_pos n p hn hp0 hp1)
    · exact Nat.ceil_pos.2 (NewBloomFilter_k_pos n p hn hp0 hp1)
  | add f g member _ hadd ih =>
    obtain ⟨hwf, hM, hK⟩ := ih
    obtain ⟨bs, h1, h2, _⟩ := Add_spec f member hwf hM
    rw [h1] at hadd
    injection hadd with hg
    subst hg
    refine ⟨?_, hM, hK⟩
    unfold WellFormed
    exact h2.trans hwf
  | has f g member v _ hhas ih =>
    obtain ⟨hwf, hM, hK⟩ := ih
    obtain ⟨w, h1, _⟩ := Has_spec f member hwf hM
    rw [h1] at hhas
    injection hhas with hg
    injection hg with _ hg2
    subst hg2
    exact ⟨hwf, hM, hK⟩
  | clear f _ ih =>
    exact ⟨Clear_wellFormed f, ih.2.1, ih.2.2⟩
  | setK f k _ hk ih =>
    refine ⟨Clear_wellFormed _, ih.2.1, ?_⟩
    rw [SetK_K]; exact float64OfUint_pos k hk
  | setM f m _ hm ih =>
    refine ⟨Clear_wellFormed _, ?_, ih.2.2⟩
    rw [SetM_M]; exact float64OfUint_pos m hm

/-! ## Sequences of Add -/

theorem hash_fst_eq (f g : BloomFilter) (member : List UInt8) :
    (f.hash member).1 = (g.hash member).1 := rfl

theorem AddAll_spec (ms : List (List UInt8)) :
    ∀ f : BloomFilter, WellFormed f → 1 ≤ f.M →
      ∃ g, AddAll f ms = .ok g ∧ g.M = f.M ∧ g.K = f.K ∧ WellFormed g ∧
        ∀ y, bitAt f.b y = true → bitAt g.b y = true := by
  induction ms with
  | nil =>
    intro f hwf _
    exact ⟨f, rfl, rfl, rfl, hwf, fun _ h => h⟩
  | cons x xs ih =>
    intro f hwf hM
    obtain ⟨bs, h1, h2, h3⟩ := Add_spec f x hwf hM
    have hwf1 : WellFormed { (f.hash x).2 with b := bs } := by
      unfold WellFormed
      exact h2.trans hwf
    obtain ⟨g, hg, hgM, hgK, hgwf, hgbits⟩ := ih { (f.hash x).2 with b := bs } hwf1 hM
    refine ⟨g, ?_, hgM, hgK, hgwf, ?_⟩
    · simp only [AddAll, h1, bind, Except.bind]
      exact hg
    · intro y hy
      exact hgbits y ((h3 y).2 (Or.inl hy))

theorem no_false_negative (f : BloomFilter) (hwf : WellFormed f) (hM : 1 ≤ f.M)
    (member : List UInt8) (ms : List (List UInt8)) :
    ∃ g1 g2 g3, f.Add member = .ok g1 ∧ AddAll g1 ms = .ok g2 ∧
      g2.Has member = .ok (true, g3) := by
  obtain ⟨bs, h1, h2, h3⟩ := Add_spec f member hwf hM
  have hwf1 : WellFormed { (f.hash member).2 with b := bs } := by
    unfold WellFormed
    exact h2.trans hwf
  obtain ⟨g2, hg, hgM, hgK, hgwf, hgbits⟩ :=
    AddAll_spec ms { (f.hash member).2 with b := bs } hwf1 hM
  have hM2 : 1 ≤ g2.M := by rw [hgM]; exact hM
  obtain ⟨v, hv, hiff⟩ := Has_spec g2 member hgwf hM2
  have hvt : v = true := by
    rw [hiff]
    intro t ht
    apply hgbits
    apply (h3 _).2
    right
    refine ⟨t, ?_, ?_⟩
    · rw [hgK] at ht; exact ht
    · rw [hgM, hash_fst_eq g2 f member]
      rfl
  subst hvt
  exact ⟨_, g2, _, h1, hg, hv⟩

theorem probeIndex_eq (a b m i : Nat) : probeIndex a b m i = (a + b * i) % 2 ^ 64 % m := by
  unfold probeIndex
  rw [Nat.add_mod_mod]

theorem Get_true_iff (bs : BitSet) (j : Nat) (hj : j < 8 * bs.length) :
    bs.Get j = .ok true ↔ bitAt bs j = true := by
  rw [Get_eq_bitAt bs j (by omega)]
  constructor
  · intro h; injection h
  · intro h; rw [h]

/-! ## Claims -/

/-- C1. No false negatives: in a filter built by `NewBloomFilter(n, p)` with
`n ≥ 1` and `0 < p < 1`, after any members `pre` were added, `Add(member)` and
then any further sequence `post` of `Add` calls all return normally, and
`Has(member)` on the resulting filter returns `true`. -/
theorem C1_no_false_negatives (n : Int) (p : ℝ) (hn : 1 ≤ n) (hp0 : 0 < p) (hp1 : p < 1)
    (pre : List (List UInt8)) (member : List UInt8) (post : List (List UInt8)) :
    ∃ g0 g1 g2 g3, AddAll (NewBloomFilter n p) pre = .ok g0 ∧ g0.Add member = .ok g1 ∧
      AddAll g1 post = .ok g2 ∧ g2.Has member = .ok (true, g3) := by
  obtain ⟨hwf, hM, _⟩ := Reachable_inv _ (Reachable.new n p hn hp0 hp1)
  obtain ⟨g0, h0, hM0, _, hwf0, _⟩ := AddAll_spec pre (NewBloomFilter n p) hwf hM
  obtain ⟨g1, g2, g3, h1, h2, h3⟩ :=
    no_false_negative g0 hwf0 (by rw [hM0]; exact hM) member post
  exact ⟨g0, g1, g2, g3, h0, h1, h2, h3⟩

/-- Witness of C1 at `NewBloomFilter(100, 0.01)`, member `"7"` added after
`"0"` and before `"8"`, `"9"`. -/
theorem C1_no_false_negatives_witness :
    ∃ g0 g1 g2 g3, AddAll (NewBloomFilter 100 (1 / 100)) [[48]] = .ok g0 ∧
      g0.Add [55] = .ok g1 ∧ AddAll g1 [[56], [57]] = .ok g2 ∧
      g2.Has [55] = .ok (true, g3) :=
  C1_no_false_negatives 100 (1 / 100) (by norm_num) (by norm_num) (by norm_num)
    [[48]] [55] [[56], [57]]

/-- C2 (amended). `Add` sets exactly the probe positions of the loop: for a
filter whose bit vector has the size `Clear` allocates and with `M() ≥ 1`, and
`(a, b) = hash(member)`, `Add(member)` returns normally, keeps the length of
the bit vector, and a bit index `j` inside the vector is set afterwards if and
only if it was set before or `j = ((a + b * i) mod 2^64) mod M()` for some
`i < K()`: the sum is reduced modulo 2^64 by the `uint` arithmetic first. -/
theorem C2_add_sets_probe_positions (f : BloomFilter) (member : List UInt8)
    (hwf : WellFormed f) (hM : 1 ≤ f.M) :
    ∃ g, f.Add member = .ok g ∧ g.b.length = f.b.length ∧
      ∀ j, j < 8 * f.b.length →
        (g.b.Get j = .ok true ↔
          (f.b.Get j = .ok true ∨
            ∃ i, i < f.K ∧
              j = ((f.hash member).1.1 + (f.hash member).1.2 * i) % 2 ^ 64 % f.M)) := by
  obtain ⟨bs, h1, h2, h3⟩ := Add_spec f member hwf hM
  refine ⟨_, h1, h2, ?_⟩
  intro j hj
  have hj2 : j < 8 * bs.length := by rw [h2]; exact hj
  show BitSet.Get bs j = .ok true ↔ _
  rw [Get_true_iff bs j hj2, Get_true_iff f.b j hj, h3 j]
  simp only [probeIndex_eq]

/-- Witness of C2 on the filter `NewBloomFilter(10, 0.1)` after `SetM(16)`. -/
theorem C2_add_sets_probe_positions_witness :
    WellFormed ((NewBloomFilter 10 (1 / 10)).SetM 16) ∧
    1 ≤ ((NewBloomFilter 10 (1 / 10)).SetM 16).M ∧
    ∃ g, ((NewBloomFilter 10 (1 / 10)).SetM 16).Add [120] = .ok g ∧
      g.b.length = ((NewBloomFilter 10 (1 / 10)).SetM 16).b.length ∧
      ∀ j, j < 8 * ((NewBloomFilter 10 (1 / 10)).SetM 16).b.length →
        (g.b.Get j = .ok true ↔
          (((NewBloomFilter 10 (1 / 10)).SetM 16).b.Get j = .ok true ∨
            ∃ i, i < ((NewBloomFilter 10 (1 / 10)).SetM 16).K ∧
              j = ((((NewBloomFilter 10 (1 / 10)).SetM 16).hash [120]).1.1
                  + (((NewBloomFilter 10 (1 / 10)).SetM 16).hash [120]).1.2 * i)
                % 2 ^ 64 % ((NewBloomFilter 10 (1 / 10)).SetM 16).M)) :=
  ⟨Clear_wellFormed _, by rw [SetM_M]; decide,
    C2_add_sets_probe_positions _ [120] (Clear_wellFormed _) (by rw [SetM_M]; decide)⟩

/-- C3 (amended). `Has` is the conjunction over the probe positions of the
loop: for a filter whose bit vector has the size `Clear` allocates and with
`M() ≥ 1`, and `(a, b) = hash(member)`, `Has(member)` returns normally, and it
returns `true` if and only if for every `i < K()` the bit at index
`((a + b * i) mod 2^64) mod M()` is set (so `false` as soon as one is unset). -/
theorem C3_has_is_conjunction (f : BloomFilter) (member : List UInt8)
    (hwf : WellFormed f) (hM : 1 ≤ f.M) :
    ∃ v g, f.Has member = .ok (v, g) ∧
      (v = true ↔ ∀ i, i < f.K →
        f.b.Get (((f.hash member).1.1 + (f.hash member).1.2 * i) % 2 ^ 64 % f.M)
          = .ok true) := by
  obtain ⟨v, h1, h2⟩ := Has_spec f member hwf hM
  refine ⟨v, _, h1, ?_⟩
  rw [h2]
  have hlen := M_le_bits f hwf
  have hm : f.M ≠ 0 := by omega
  constructor
  · intro h i hi
    have hlt := probeIndex_lt (f.hash member).1.1 (f.hash member).1.2 f.M i hm
    rw [← probeIndex_eq, Get_true_iff _ _ (by omega)]
    exact h i hi
  · intro h i hi
    have hlt := probeIndex_lt (f.hash member).1.1 (f.hash member).1.2 f.M i hm
    have := h i hi
    rw [← probeIndex_eq, Get_true_iff _ _ (by omega)] at this
    exact this

/-- Witness of C3 on the filter `NewBloomFilter(10, 0.1)` after `SetM(16)`. -/
theorem C3_has_is_conjunction_witness :
    WellFormed ((NewBloomFilter 10 (1 / 10)).SetM 16) ∧
    1 ≤ ((NewBloomFilter 10 (1 / 10)).SetM 16).M ∧
    ∃ v g, ((NewBloomFilter 10 (1 / 10)).SetM 16).Has [120] = .ok (v, g) ∧
      (v = true ↔ ∀ i, i < ((NewBloomFilter 10 (1 / 10)).SetM 16).K →
        ((NewBloomFilter 10 (1 / 10)).SetM 16).b.Get
          (((((NewBloomFilter 10 (1 / 10)).SetM 16).hash [120]).1.1
            + (((NewBloomFilter 10 (1 / 10)).SetM 16).hash [120]).1.2 * i)
            % 2 ^ 64 % ((NewBloomFilter 10 (1 / 10)).SetM 16).M) = .ok true) :=
  ⟨Clear_wellFormed _, by rw [SetM_M]; decide,
    C3_has_is_conjunction _ [120] (Clear_wellFormed _) (by rw [SetM_M]; decide)⟩

/-! ## Wrap-around of the index arithmetic -/

theorem SetK_M (f : BloomFilter) (k : Nat) : (f.SetK k).M = f.M := rfl

theorem SetM_K (f : BloomFilter) (m : Nat) : (f.SetM m).K = f.K := rfl

theorem wrapFilter_M : wrapFilter.M = 11 := by
  unfold wrapFilter
  rw [SetK_M, SetM_M]
  decide

theorem wrapFilter_K : wrapFilter.K = 8204913969 := by
  unfold wrapFilter
  rw [SetK_K]
  decide

theorem wrapFilter_reachable : Reachable wrapFilter :=
  Reachable.setK _ _
    (Reachable.setM _ _ (Reachable.new 1 (1 / 2) (by norm_num) (by norm_num) (by norm_num))
      (by decide))
    (by decide)

theorem wrapFilter_bits (y : Nat) : bitAt wrapFilter.b y = false :=
  bitAt_NewBitSet _ y

theorem wrapFilter_length : wrapFilter.b.length = 2 := by
  have h := (Reachable_inv _ wrapFilter_reachable).1
  unfold WellFormed at h
  rw [h]
  have h11 : float64OfUint 11 = 11 := by decide
  have hm : wrapFilter.m = 11 := by
    simp [wrapFilter, BloomFilter.SetK, BloomFilter.SetM, BloomFilter.Clear, h11]
  rw [hm, Nat.ceil_eq_iff (by decide)]
  norm_num

theorem hash_nine (f : BloomFilter) : (f.hash [57]).1 = (2942547020, 2248255636) := by
  have h : (BloomFilter.hash ⟨0, 0, 0, 0, [], 0⟩ [57]).1 = (2942547020, 2248255636) := by
    decide
  exact (hash_fst_eq f _ [57]).trans h

theorem hash_four (f : BloomFilter) : (f.hash [52]).1 = (2942544204, 2248250851) := by
  have h : (BloomFilter.hash ⟨0, 0, 0, 0, [], 0⟩ [52]).1 = (2942544204, 2248250851) := by
    decide
  exact (hash_fst_eq f _ [52]).trans h

/-- C2, counterexample. On the reachable filter `wrapFilter` (`M() = 11`,
`K() = 8204913969`, all bits clear), `Add("9")` sets bit 1, the probe of
iteration `i = 8204913968` where `a + b * i` exceeds 2^64, although bit 1 was
not set before and `(a + b * i) mod 11 = 6` for every `i`. -/
theorem C2_counterexample :
    Reachable wrapFilter ∧ 1 ≤ wrapFilter.M ∧
    ∃ g, wrapFilter.Add [57] = .ok g ∧ 1 < 8 * wrapFilter.b.length ∧
      g.b.Get 1 = .ok true ∧
      ¬ (wrapFilter.b.Get 1 = .ok true ∨
          ∃ i, i < wrapFilter.K ∧
            1 = ((wrapFilter.hash [57]).1.1 + (wrapFilter.hash [57]).1.2 * i)
                  % wrapFilter.M) := by
  obtain ⟨hwf, hM, _⟩ := Reachable_inv _ wrapFilter_reachable
  obtain ⟨bs, h1, h2, h3⟩ := Add_spec wrapFilter [57] hwf hM
  have hlen : 1 < 8 * wrapFilter.b.length := by rw [wrapFilter_length]; decide
  refine ⟨wrapFilter_reachable, hM, _, h1, hlen, ?_, ?_⟩
  · show BitSet.Get bs 1 = .ok true
    rw [Get_true_iff bs 1 (by rw [h2]; exact hlen), h3 1]
    right
    refine ⟨8204913968, by rw [wrapFilter_K]; decide, ?_⟩
    rw [hash_nine, wrapFilter_M]
    decide
  · rw [Get_true_iff _ 1 hlen, wrapFilter_bits, hash_nine, wrapFilter_M]
    rintro (h | ⟨i, _, hi⟩)
    · cases h
    · simp only at hi
      omega

/-- C3, counterexample. On the reachable filter `wrapFilter` after `Add("4")`,
every bit at `(a + b * i) mod 11` for `hash("9") = (a, b)` is set (it is bit 6
for every `i`), yet `Has("9")` returns `false`: its probe of iteration
`i = 8204913968`, where `a + b * i` exceeds 2^64, tests bit 1. -/
theorem C3_counterexample :
    Reachable wrapFilter ∧
    ∃ g g1, wrapFilter.Add [52] = .ok g ∧ 1 ≤ g.M ∧ g.Has [57] = .ok (false, g1) ∧
      ∀ i, i < g.K →
        g.b.Get (((g.hash [57]).1.1 + (g.hash [57]).1.2 * i) % g.M) = .ok true := by
  obtain ⟨hwf, hM, _⟩ := Reachable_inv _ wrapFilter_reachable
  obtain ⟨bs, h1, h2, h3⟩ := Add_spec wrapFilter [52] hwf hM
  have hwf1 : WellFormed { (wrapFilter.hash [52]).2 with b := bs } := by
    unfold WellFormed
    exact h2.trans hwf
  have hM1 : ({ (wrapFilter.hash [52]).2 with b := bs } : BloomFilter).M = 11 := wrapFilter_M
  have hK1 : ({ (wrapFilter.hash [52]).2 with b := bs } : BloomFilter).K = 8204913969 :=
    wrapFilter_K
  have hbits : ∀ y, bitAt bs y = true ↔ y = 6 := by
    intro y
    rw [h3 y, wrapFilter_bits, hash_four, wrapFilter_M, wrapFilter_K]
    simp only [probeIndex_eq]
    constructor
    · rintro (h | ⟨t, ht, hy⟩)
      · cases h
      · have hnowrap : (2942544204 + 2248250851 * t) % 2 ^ 64
            = 2942544204 + 2248250851 * t := Nat.mod_eq_of_lt (by omega)
        rw [hnowrap] at hy
        omega
    · intro hy
      exact Or.inr ⟨0, by decide, by rw [hy]; decide⟩
  obtain ⟨v, hv, hiff⟩ := Has_spec _ [57] hwf1 (by rw [hM1]; decide)
  have hvf : v = false := by
    cases v with
    | false => rfl
    | true =>
      have hall := hiff.1 rfl 8204913968 (by rw [hK1]; decide)
      rw [hash_nine, hM1] at hall
      have h6 := (hbits _).1 hall
      revert h6
      decide
  subst hvf
  refine ⟨wrapFilter_reachable, _, _, h1, by rw [hM1]; decide, hv, ?_⟩
  intro i _
  rw [hash_nine, hM1]
  have hpos : (2942547020 + 2248255636 * i) % 11 = 6 := by omega
  simp only [hpos]
  rw [Get_true_iff _ 6 (by show 6 < 8 * bs.length; rw [h2, wrapFilter_length]; decide)]
  exact (hbits 6).2 rfl

/-- C4. Out-of-range bit access is unreachable: on every reachable filter and
for every member, `M()` is not zero, `Add` and `Has` return normally (no
division by zero, no slice index out of range), and every index `x` the loops
compute satisfies `x < M()` and `x / 8 < len(b)`. -/
theorem C4_no_out_of_range (f : BloomFilter) (hf : Reachable f) (member : List UInt8) :
    f.M ≠ 0 ∧ (∃ g, f.Add member = .ok g) ∧ (∃ v g, f.Has member = .ok (v, g)) ∧
      ∀ i, i < f.K →
        ∃ x, probe (f.hash member).1.1 (f.hash member).1.2 f.M i = .ok x ∧
          x < f.M ∧ x / 8 < f.b.length := by
  obtain ⟨hwf, hM, _⟩ := Reachable_inv f hf
  have hm : f.M ≠ 0 := by omega
  obtain ⟨bs, h1, _, _⟩ := Add_spec f member hwf hM
  obtain ⟨v, h2, _⟩ := Has_spec f member hwf hM
  refine ⟨hm, ⟨_, h1⟩, ⟨v, _, h2⟩, ?_⟩
  intro i _
  have hlt := probeIndex_lt (f.hash member).1.1 (f.hash member).1.2 f.M i hm
  exact ⟨_, probe_eq _ _ _ i hm, hlt, index_in_range f.b f.M _ (M_le_bits f hwf) hlt⟩

/-- Witness of C4 on `NewBloomFilter(50000, 0.01)` after `SetK(3)`. -/
theorem C4_no_out_of_range_witness :
    Reachable ((NewBloomFilter 50000 (1 / 100)).SetK 3) ∧
    ((NewBloomFilter 50000 (1 / 100)).SetK 3).M ≠ 0 ∧
    (∃ g, ((NewBloomFilter 50000 (1 / 100)).SetK 3).Add [97, 98] = .ok g) ∧
    (∃ v g, ((NewBloomFilter 50000 (1 / 100)).SetK 3).Has [97, 98] = .ok (v, g)) ∧
    ∀ i, i < ((NewBloomFilter 50000 (1 / 100)).SetK 3).K →
      ∃ x, probe (((NewBloomFilter 50000 (1 / 100)).SetK 3).hash [97, 98]).1.1
          (((NewBloomFilter 50000 (1 / 100)).SetK 3).hash [97, 98]).1.2
          ((NewBloomFilter 50000 (1 / 100)).SetK 3).M i = .ok x ∧
        x < ((NewBloomFilter 50000 (1 / 100)).SetK 3).M ∧
        x / 8 < ((NewBloomFilter 50000 (1 / 100)).SetK 3).b.length :=
  ⟨Reachable.setK _ 3
      (Reachable.new 50000 (1 / 100) (by norm_num) (by norm_num) (by norm_num)) (by decide),
    C4_no_out_of_range _
      (Reachable.setK _ 3
        (Reachable.new 50000 (1 / 100) (by norm_num) (by norm_num) (by norm_num))
        (by decide))
      [97, 98]⟩

/-! ## Construction -/

theorem NewBloomFilter_p_one (n : Int) :
    (NewBloomFilter n 1).m = 0 ∧ (NewBloomFilter n 1).k = 0 ∧ (NewBloomFilter n 1).b = [] := by
  have hm : (NewBloomFilter n 1).m = 0 := by
    rw [NewBloomFilter_m]; simp
  have hk : (NewBloomFilter n 1).k = 0 := by
    rw [NewBloomFilter_k, hm]; simp
  refine ⟨hm, hk, ?_⟩
  show NewBitSet ⌈(NewBloomFilter n 1).m / 8⌉₊ = []
  rw [hm]
  simp [NewBitSet]

theorem ClearResult_of_le (maxLen : Nat) (f : BloomFilter) (h : f.m ≤ -8) :
    f.ClearResult maxLen = .error Panic.lenOutOfRange := by
  have h1 : f.m / 8 ≤ -1 := by linarith
  unfold BloomFilter.ClearResult
  rw [if_pos h1]

theorem ClearResult_of_fits (maxLen : Nat) (f : BloomFilter) (h : -8 < f.m)
    (hlen : ⌈f.m / 8⌉₊ ≤ maxLen) : f.ClearResult maxLen = .ok f.Clear := by
  have h1 : ¬ f.m / 8 ≤ -1 := by
    intro h2
    linarith
  have h2 : ¬ maxLen < ⌈f.m / 8⌉₊ := by omega
  unfold BloomFilter.ClearResult
  rw [if_neg h1, if_neg h2]

theorem NewBloomFilterResult_eq (maxLen : Nat) (n : Int) (p : ℝ) :
    NewBloomFilterResult maxLen n p =
      match BloomFilter.ClearResult maxLen
        { m := (NewBloomFilter n p).m, k := (NewBloomFilter n p).k, p := p, n := (n : ℝ),
          b := [], H := fnvOffset64 } with
      | .ok f => ConstructResult.constructed f
      | .error e => ConstructResult.panicked e := rfl

theorem NewBloomFilterResult_of_gt (maxLen : Nat) (n : Int) (p : ℝ)
    (h : -8 < (NewBloomFilter n p).m) (hlen : ⌈(NewBloomFilter n p).m / 8⌉₊ ≤ maxLen) :
    NewBloomFilterResult maxLen n p = ConstructResult.constructed (NewBloomFilter n p) := by
  rw [NewBloomFilterResult_eq, ClearResult_of_fits maxLen
    (⟨(NewBloomFilter n p).m, (NewBloomFilter n p).k, p, (n : ℝ), [], fnvOffset64⟩ :
      BloomFilter) h hlen]
  rfl

theorem NewBloomFilterResult_of_le (maxLen : Nat) (n : Int) (p : ℝ)
    (h : (NewBloomFilter n p).m ≤ -8) :
    NewBloomFilterResult maxLen n p = ConstructResult.panicked Panic.lenOutOfRange := by
  rw [NewBloomFilterResult_eq, ClearResult_of_le maxLen
    (⟨(NewBloomFilter n p).m, (NewBloomFilter n p).k, p, (n : ℝ), [], fnvOffset64⟩ :
      BloomFilter) h]

theorem NewBloomFilterResult_ne (maxLen : Nat) (n : Int) (p : ℝ) :
    NewBloomFilterResult maxLen n p ≠ ConstructResult.invalidParameter := by
  rw [NewBloomFilterResult_eq]
  intro h
  split at h <;> cases h

/-- C5, counterexample. `NewBloomFilter(10, 1)`, whose `p` is not strictly
between 0 and 1, does not fail with `InvalidParameter`: it constructs a filter,
with `M() = 0`, `K() = 0` and an empty bit vector (whatever the largest length
`make` allocates, here `2^48`). -/
theorem C5_counterexample :
    ¬ ((10 : Int) ≤ 0 ∨ ¬ ((0 : ℝ) < 1 ∧ (1 : ℝ) < 1) →
        NewBloomFilterResult (2 ^ 48) 10 1 = ConstructResult.invalidParameter) ∧
    ∃ f, NewBloomFilterResult (2 ^ 48) 10 1 = ConstructResult.constructed f ∧
      f.M = 0 ∧ f.K = 0 ∧ f.b = [] := by
  obtain ⟨hm, hk, hb⟩ := NewBloomFilter_p_one 10
  have hres := NewBloomFilterResult_of_gt (2 ^ 48) 10 1 (by rw [hm]; norm_num)
    (by rw [hm]; simp)
  constructor
  · intro h
    have h1 := h (Or.inr (by norm_num))
    rw [hres] at h1
    cases h1
  · refine ⟨NewBloomFilter 10 1, hres, ?_, ?_, hb⟩
    · unfold BloomFilter.M; rw [hm]; simp
    · unfold BloomFilter.K; rw [hk]; simp

/-! ## Numeric bounds for the sizing formulas -/

theorem log_five_fourths_bounds :
    (0.2231435 : ℝ) < Real.log (5 / 4) ∧ Real.log (5 / 4) < 0.2231436 := by
  have h := Real.abs_log_sub_add_sum_range_le (x := 1 / 5) (by norm_num [abs_of_pos]) 10
  have e : Real.log (1 - 1 / 5) = -Real.log (5 / 4) := by
    rw [← Real.log_inv]
    norm_num
  rw [e, abs_le] at h
  simp only [Finset.sum_range_succ, Finset.sum_range_zero] at h
  norm_num [abs_of_pos] at h
  constructor <;> linarith [h.1, h.2]

theorem log_hundred_eq : Real.log 100 = 6 * Real.log 2 + 2 * Real.log (5 / 4) := by
  have h : (100 : ℝ) = 2 ^ 6 * (5 / 4) ^ 2 := by norm_num
  rw [h, Real.log_mul (by norm_num) (by norm_num), Real.log_pow, Real.log_pow]
  norm_num

theorem log_five_sixteenths_eq : Real.log (5 / 16) = Real.log (5 / 4) - 2 * Real.log 2 := by
  have h : (5 / 16 : ℝ) = 5 / 4 / 2 ^ 2 := by norm_num
  rw [h, Real.log_div (by norm_num) (by norm_num), Real.log_pow]
  norm_num

theorem log_hundredth_eq : Real.log (1 / 100) = -Real.log 100 := by
  rw [one_div, Real.log_inv]

theorem NewBloomFilter_m_sq (n : Int) (p : ℝ) :
    (NewBloomFilter n p).m = -(n : ℝ) * Real.log p / (Real.log 2) ^ 2 := by
  rw [NewBloomFilter_m, Real.rpow_two]

theorem NewBloomFilter_k_eq (n : Int) (p : ℝ) (hn : n ≠ 0) :
    (NewBloomFilter n p).k = -Real.log p / Real.log 2 := by
  rw [NewBloomFilter_k, NewBloomFilter_m_sq]
  have hn0 : (n : ℝ) ≠ 0 := by exact_mod_cast hn
  have h2 : Real.log 2 ≠ 0 := ne_of_gt (Real.log_pos (by norm_num))
  field_simp
  ring

theorem sizing_instance_m :
    (479252 : ℝ) < (NewBloomFilter 50000 (1 / 100)).m ∧
      (NewBloomFilter 50000 (1 / 100)).m ≤ 479253 := by
  have hl := Real.log_two_gt_d9
  have hu := Real.log_two_lt_d9
  obtain ⟨hc1, hc2⟩ := log_five_fourths_bounds
  have hpos : 0 < (Real.log 2) ^ 2 := by positivity
  rw [NewBloomFilter_m_sq, log_hundredth_eq, log_hundred_eq]
  push_cast
  constructor
  · rw [lt_div_iff₀ hpos]
    nlinarith
  · rw [div_le_iff₀ hpos]
    nlinarith

theorem skew_instance_m :
    (2 : ℝ) < (NewBloomFilter 1 (5 / 16)).m ∧ (NewBloomFilter 1 (5 / 16)).m ≤ 3 := by
  have hl := Real.log_two_gt_d9
  have hu := Real.log_two_lt_d9
  obtain ⟨hc1, hc2⟩ := log_five_fourths_bounds
  have hpos : 0 < (Real.log 2) ^ 2 := by positivity
  rw [NewBloomFilter_m_sq, log_five_sixteenths_eq]
  push_cast
  constructor
  · rw [lt_div_iff₀ hpos]
    nlinarith
  · rw [div_le_iff₀ hpos]
    nlinarith

theorem skew_instance_k :
    (1 : ℝ) < (NewBloomFilter 1 (5 / 16)).k ∧ (NewBloomFilter 1 (5 / 16)).k ≤ 2 := by
  have hl := Real.log_two_gt_d9
  have hu := Real.log_two_lt_d9
  obtain ⟨hc1, hc2⟩ := log_five_fourths_bounds
  have hpos : 0 < Real.log 2 := Real.log_pos (by norm_num)
  rw [NewBloomFilter_k_eq _ _ (by decide), log_five_sixteenths_eq]
  constructor
  · rw [lt_div_iff₀ hpos]
    linarith
  · rw [div_le_iff₀ hpos]
    linarith

theorem ceil_of_bounds (x : ℝ) (c : Nat) (h1 : (c : ℝ) < x) (h2 : x ≤ (c : ℝ) + 1) :
    ⌈x⌉₊ = c + 1 := by
  rw [Nat.ceil_eq_iff (Nat.succ_ne_zero c)]
  constructor
  · simpa using h1
  · push_cast; exact h2

theorem log_three_halves_lower : (0.3898 : ℝ) < Real.log (3 / 2) := by
  have h : (3 / 2 : ℝ) = 5 / 4 * (6 / 5) := by norm_num
  have h1 := log_five_fourths_bounds.1
  have h2 : 1 - ((6 : ℝ) / 5)⁻¹ ≤ Real.log (6 / 5) :=
    Real.one_sub_inv_le_log_of_pos (by norm_num)
  rw [h, Real.log_mul (by norm_num) (by norm_num)]
  norm_num at h2
  linarith

theorem negative_instance_m :
    (NewBloomFilter (-1) (1 / 100)).m ≤ -8 ∧ (NewBloomFilter 10 (3 / 2)).m ≤ -8 := by
  have hl := Real.log_two_gt_d9
  have hu := Real.log_two_lt_d9
  obtain ⟨hc1, hc2⟩ := log_five_fourths_bounds
  have h32 := log_three_halves_lower
  have hpos : 0 < (Real.log 2) ^ 2 := by positivity
  constructor
  · rw [NewBloomFilter_m_sq, log_hundredth_eq, log_hundred_eq]
    push_cast
    rw [div_le_iff₀ hpos]
    nlinarith
  · rw [NewBloomFilter_m_sq]
    push_cast
    rw [div_le_iff₀ hpos]
    nlinarith

/-- C5 (amended). `NewBloomFilter` validates nothing and has no
`InvalidParameter` outcome. For `p = 1` (not strictly below 1) and `n ≠ 0` it
constructs a filter, with `M() = 0`, `K() = 0` and an empty bit vector. For
`(-1, 0.01)` and `(10, 1.5)` the computed bit count is `-8` or below and no
filter is constructed: the allocation of the bit vector panics with
`len out of range`, a run-time panic and not an `InvalidParameter` condition. -/
theorem C5_no_parameter_validation (maxLen : Nat) (n : Int) (_hn : n ≠ 0) :
    (∀ (n1 : Int) (p1 : ℝ),
      NewBloomFilterResult maxLen n1 p1 ≠ ConstructResult.invalidParameter) ∧
    (∃ f, NewBloomFilterResult maxLen n 1 = ConstructResult.constructed f ∧
      f.M = 0 ∧ f.K = 0 ∧ f.b = []) ∧
    NewBloomFilterResult maxLen (-1) (1 / 100)
      = ConstructResult.panicked Panic.lenOutOfRange ∧
    NewBloomFilterResult maxLen 10 (3 / 2)
      = ConstructResult.panicked Panic.lenOutOfRange := by
  refine ⟨fun n1 p1 => NewBloomFilterResult_ne maxLen n1 p1, ?_,
    NewBloomFilterResult_of_le _ _ _ negative_instance_m.1,
    NewBloomFilterResult_of_le _ _ _ negative_instance_m.2⟩
  obtain ⟨hm, hk, hb⟩ := NewBloomFilter_p_one n
  refine ⟨NewBloomFilter n 1,
    NewBloomFilterResult_of_gt maxLen n 1 (by rw [hm]; norm_num) (by rw [hm]; simp),
    ?_, ?_, hb⟩
  · unfold BloomFilter.M; rw [hm]; simp
  · unfold BloomFilter.K; rw [hk]; simp

/-- Witness of C5 (amended) at `n = -1`, with `2^48` the largest length. -/
theorem C5_no_parameter_validation_witness :
    (-1 : Int) ≠ 0 ∧
    (∀ (n1 : Int) (p1 : ℝ),
      NewBloomFilterResult (2 ^ 48) n1 p1 ≠ ConstructResult.invalidParameter) ∧
    (∃ f, NewBloomFilterResult (2 ^ 48) (-1) 1 = ConstructResult.constructed f ∧
      f.M = 0 ∧ f.K = 0 ∧ f.b = []) ∧
    NewBloomFilterResult (2 ^ 48) (-1) (1 / 100)
      = ConstructResult.panicked Panic.lenOutOfRange ∧
    NewBloomFilterResult (2 ^ 48) 10 (3 / 2)
      = ConstructResult.panicked Panic.lenOutOfRange :=
  ⟨by decide, C5_no_parameter_validation (2 ^ 48) (-1) (by decide)⟩

theorem Has_of_empty (f : BloomFilter) (member : List UInt8) (hwf : WellFormed f)
    (hM : 1 ≤ f.M) (hK : 1 ≤ f.K) (hbits : ∀ y, bitAt f.b y = false) :
    ∃ g, f.Has member = .ok (false, g) := by
  obtain ⟨v, hv, hiff⟩ := Has_spec f member hwf hM
  have hvf : v = false := by
    cases v with
    | false => rfl
    | true =>
      have h := hiff.1 rfl 0 (by omega)
      rw [hbits] at h
      cases h
  subst hvf
  exact ⟨_, hv⟩

theorem Clear_bits (f : BloomFilter) (y : Nat) : bitAt f.Clear.b y = false :=
  bitAt_NewBitSet _ y

/-- C8. An empty filter contains nothing: on a reachable filter `f` (any
members added before), right after `SetK(k)` with `k ≥ 1`, after `SetM(m)`
with `m ≥ 1`, after `Clear()`, and right after `NewBloomFilter(n, p)` with
`n ≥ 1`, `0 < p < 1`, `Has(member)` returns `false` for every member. -/
theorem C8_empty_contains_nothing (f : BloomFilter) (hf : Reachable f) (k m : Nat)
    (hk : 1 ≤ k) (hm : 1 ≤ m) (n : Int) (p : ℝ) (hn : 1 ≤ n) (hp0 : 0 < p) (hp1 : p < 1)
    (member : List UInt8) :
    (∃ g, (f.SetK k).Has member = .ok (false, g)) ∧
    (∃ g, (f.SetM m).Has member = .ok (false, g)) ∧
    (∃ g, f.Clear.Has member = .ok (false, g)) ∧
    (∃ g, (NewBloomFilter n p).Has member = .ok (false, g)) := by
  have key : ∀ h : BloomFilter, Reachable h → (∀ y, bitAt h.b y = false) →
      ∃ g, h.Has member = .ok (false, g) := by
    intro h hh hb
    obtain ⟨hwf, hM, hK⟩ := Reachable_inv h hh
    exact Has_of_empty h member hwf hM hK hb
  exact ⟨key _ (Reachable.setK f k hf hk) (Clear_bits _),
    key _ (Reachable.setM f m hf hm) (Clear_bits _),
    key _ (Reachable.clear f hf) (Clear_bits _),
    key _ (Reachable.new n p hn hp0 hp1) (Clear_bits _)⟩

/-- Witness of C8 on `NewBloomFilter(10, 0.1)` after `SetM(64)`, with
`SetK(3)`, `SetM(16)`, `Clear()` and `NewBloomFilter(100, 0.01)`, member `"x"`. -/
theorem C8_empty_contains_nothing_witness :
    Reachable ((NewBloomFilter 10 (1 / 10)).SetM 64) ∧
    (∃ g, (((NewBloomFilter 10 (1 / 10)).SetM 64).SetK 3).Has [120] = .ok (false, g)) ∧
    (∃ g, (((NewBloomFilter 10 (1 / 10)).SetM 64).SetM 16).Has [120] = .ok (false, g)) ∧
    (∃ g, ((NewBloomFilter 10 (1 / 10)).SetM 64).Clear.Has [120] = .ok (false, g)) ∧
    (∃ g, (NewBloomFilter 100 (1 / 100)).Has [120] = .ok (false, g)) :=
  ⟨Reachable.setM _ 64
      (Reachable.new 10 (1 / 10) (by norm_num) (by norm_num) (by norm_num)) (by decide),
    C8_empty_contains_nothing _
      (Reachable.setM _ 64
        (Reachable.new 10 (1 / 10) (by norm_num) (by norm_num) (by norm_num)) (by decide))
      3 16 (by decide) (by decide) 100 (1 / 100) (by norm_num) (by norm_num) (by norm_num)
      [120]⟩

/-- C10. Derived parameters are positive: for `n ≥ 1` and `0 < p < 1` the
filter returned by `NewBloomFilter(n, p)` has `M() ≥ 1` and `K() ≥ 1`. -/
theorem C10_derived_parameters_positive (n : Int) (p : ℝ) (hn : 1 ≤ n) (hp0 : 0 < p)
    (hp1 : p < 1) :
    1 ≤ (NewBloomFilter n p).M ∧ 1 ≤ (NewBloomFilter n p).K :=
  ⟨Nat.ceil_pos.2 (NewBloomFilter_m_pos n p hn hp0 hp1),
    Nat.ceil_pos.2 (NewBloomFilter_k_pos n p hn hp0 hp1)⟩

/-- Witness of C10 at `NewBloomFilter(5, 0.5)`. -/
theorem C10_derived_parameters_positive_witness :
    1 ≤ (NewBloomFilter 5 (1 / 2)).M ∧ 1 ≤ (NewBloomFilter 5 (1 / 2)).K :=
  C10_derived_parameters_positive 5 (1 / 2) (by norm_num) (by norm_num) (by norm_num)

/-! ## Bit vector law, hash split, index arithmetic -/

theorem Get_congr_bitAt (bs1 bs2 : BitSet) (y : Nat) (h1 : y / 8 < bs1.length)
    (h2 : y / 8 < bs2.length) (h : bitAt bs1 y = bitAt bs2 y) : bs1.Get y = bs2.Get y := by
  rw [Get_eq_bitAt bs1 y h1, Get_eq_bitAt bs2 y h2, h]

/-- C11. Bit vector set/get law: for indices `x`, `y` whose bytes lie inside
the vector, `Set(x)` returns normally and keeps the length, and afterwards
`Get(y)` is true if and only if `y = x` or `Get(y)` was true before; `Get(x)`
is true, a set bit stays set, and no bit other than `x` changes. -/
theorem C11_set_get_law (bs : BitSet) (x y : Nat) (hx : x / 8 < bs.length)
    (hy : y / 8 < bs.length) :
    ∃ bs1, bs.Set x = .ok bs1 ∧ bs1.length = bs.length ∧
      (bs1.Get y = .ok true ↔ (y = x ∨ bs.Get y = .ok true)) ∧
      bs1.Get x = .ok true ∧
      (bs.Get y = .ok true → bs1.Get y = .ok true) ∧
      (y ≠ x → bs1.Get y = bs.Get y) := by
  obtain ⟨bs1, h1, h2, h3⟩ := Set_spec bs x hx
  have hy1 : y / 8 < bs1.length := by rw [h2]; exact hy
  have hx1 : x / 8 < bs1.length := by rw [h2]; exact hx
  have hiff : bs1.Get y = .ok true ↔ (y = x ∨ bs.Get y = .ok true) := by
    rw [Get_true_iff bs1 y (by omega), Get_true_iff bs y (by omega), h3 y]
    simp
  refine ⟨bs1, h1, h2, hiff, ?_, ?_, ?_⟩
  · rw [Get_true_iff bs1 x (by omega), h3 x]
    simp
  · intro h
    exact hiff.2 (Or.inr h)
  · intro hne
    apply Get_congr_bitAt bs1 bs y hy1 hy
    rw [h3 y]
    simp [hne]

/-- Witness of C11 on the two-byte vector `[0, 5]` with `x = 9`, `y = 3`. -/
theorem C11_set_get_law_witness :
    (9 / 8 < ([0, 5] : BitSet).length) ∧ (3 / 8 < ([0, 5] : BitSet).length) ∧
    ∃ bs1, BitSet.Set [0, 5] 9 = .ok bs1 ∧ bs1.length = ([0, 5] : BitSet).length ∧
      (bs1.Get 3 = .ok true ↔ (3 = 9 ∨ BitSet.Get [0, 5] 3 = .ok true)) ∧
      bs1.Get 9 = .ok true ∧
      (BitSet.Get [0, 5] 3 = .ok true → bs1.Get 3 = .ok true) ∧
      (3 ≠ 9 → bs1.Get 3 = BitSet.Get [0, 5] 3) :=
  ⟨by decide, by decide, C11_set_get_law [0, 5] 9 3 (by decide) (by decide)⟩

theorem fnvWrite_lt (data : List UInt8) :
    ∀ h : Nat, h < 2 ^ 64 → fnvWrite h data < 2 ^ 64 := by
  induction data with
  | nil => intro h hh; exact hh
  | cons c cs ih =>
    intro h _
    exact ih _ (Nat.mod_lt _ (by norm_num))

theorem digest_lt (member : List UInt8) : fnvWrite fnvOffset64 member < 2 ^ 64 :=
  fnvWrite_lt member fnvOffset64 (by decide)

theorem split_high (h : Nat) (hh : h < 2 ^ 64) : bigEndianUint32 (fnvSum h) 0 = h / 2 ^ 32 := by
  simp only [bigEndianUint32, fnvSum, List.getD_cons_zero, List.getD_cons_succ]
  omega

theorem split_low (h : Nat) : bigEndianUint32 (fnvSum h) 4 = h % 2 ^ 32 := by
  simp only [bigEndianUint32, fnvSum, List.getD_cons_zero, List.getD_cons_succ]
  omega

theorem hash_eq (f : BloomFilter) (member : List UInt8) :
    (f.hash member).1 =
      (fnvWrite fnvOffset64 member / 2 ^ 32, fnvWrite fnvOffset64 member % 2 ^ 32) := by
  unfold BloomFilter.hash
  simp only [split_high _ (digest_lt member), split_low]

theorem hash_bounds (f : BloomFilter) (member : List UInt8) :
    (f.hash member).1.1 < 2 ^ 32 ∧ (f.hash member).1.2 < 2 ^ 32 := by
  rw [hash_eq]
  have h := digest_lt member
  constructor
  · show fnvWrite fnvOffset64 member / 2 ^ 32 < 2 ^ 32
    omega
  · show fnvWrite fnvOffset64 member % 2 ^ 32 < 2 ^ 32
    omega

/-- C16. Hash split: `hash(member)` returns `(a, b)` with `a < 2^32`,
`b < 2^32` and `a * 2^32 + b` equal to the FNV-1a 64-bit digest of `member`
(`a` the high four bytes, `b` the low four bytes); for the empty byte sequence
the digest is `0xcbf29ce484222325` and the pair `(0xcbf29ce4, 0x84222325)`. -/
theorem C16_hash_split (f : BloomFilter) (member : List UInt8) :
    (f.hash member).1.1 < 2 ^ 32 ∧ (f.hash member).1.2 < 2 ^ 32 ∧
      (f.hash member).1.1 * 2 ^ 32 + (f.hash member).1.2 = fnvWrite fnvOffset64 member ∧
      (f.hash member).1.1 = fnvWrite fnvOffset64 member / 2 ^ 32 ∧
      (f.hash member).1.2 = fnvWrite fnvOffset64 member % 2 ^ 32 ∧
      fnvWrite fnvOffset64 [] = 0xcbf29ce484222325 ∧
      (f.hash []).1 = (0xcbf29ce4, 0x84222325) := by
  obtain ⟨h1, h2⟩ := hash_bounds f member
  have he := hash_eq f member
  have e1 : (f.hash member).1.1 = fnvWrite fnvOffset64 member / 2 ^ 32 := by rw [he]
  have e2 : (f.hash member).1.2 = fnvWrite fnvOffset64 member % 2 ^ 32 := by rw [he]
  refine ⟨h1, h2, ?_, e1, e2, by decide, ?_⟩
  · rw [e1, e2]
    omega
  · rw [hash_eq]
    decide

/-! ## Dependence on the membership state only -/

theorem Add_eq_map (f : BloomFilter) (member : List UInt8) :
    f.Add member =
      (addLoop (f.hash member).1.1 (f.hash member).1.2 f.M f.K 0 f.b).map
        (fun bs => { (f.hash member).2 with b := bs }) := by
  unfold BloomFilter.Add
  cases addLoop (f.hash member).1.1 (f.hash member).1.2 (f.hash member).2.M
    (f.hash member).2.K 0 (f.hash member).2.b <;> rfl

theorem Has_eq_map (f : BloomFilter) (member : List UInt8) :
    f.Has member =
      (hasLoop (f.hash member).1.1 (f.hash member).1.2 f.M f.K 0 f.b).map
        (fun v => (v, (f.hash member).2)) := by
  unfold BloomFilter.Has
  cases hasLoop (f.hash member).1.1 (f.hash member).1.2 (f.hash member).2.M
    (f.hash member).2.K 0 (f.hash member).2.b <;> rfl

theorem M_congr (f g : BloomFilter) (h : f.m = g.m) : f.M = g.M := by
  unfold BloomFilter.M; rw [h]

theorem K_congr (f g : BloomFilter) (h : f.k = g.k) : f.K = g.K := by
  unfold BloomFilter.K; rw [h]

theorem Has_congr (f g : BloomFilter) (member : List UInt8) (h1 : f.m = g.m)
    (h2 : f.k = g.k) (h3 : f.b = g.b) :
    (f.Has member).map Prod.fst = (g.Has member).map Prod.fst := by
  rw [Has_eq_map, Has_eq_map, hash_fst_eq f g member, M_congr f g h1, K_congr f g h2, h3]
  cases hasLoop (g.hash member).1.1 (g.hash member).1.2 g.M g.K 0 g.b <;> rfl

theorem Add_congr (f g : BloomFilter) (member : List UInt8) (h1 : f.m = g.m)
    (h2 : f.k = g.k) (h3 : f.b = g.b) :
    (∃ e, f.Add member = .error e ∧ g.Add member = .error e) ∨
    (∃ f1 g1, f.Add member = .ok f1 ∧ g.Add member = .ok g1 ∧
      f1.m = g1.m ∧ f1.k = g1.k ∧ f1.b = g1.b) := by
  rw [Add_eq_map, Add_eq_map, hash_fst_eq f g member, M_congr f g h1, K_congr f g h2, h3]
  cases addLoop (g.hash member).1.1 (g.hash member).1.2 g.M g.K 0 g.b with
  | error e => exact Or.inl ⟨e, rfl, rfl⟩
  | ok bs => exact Or.inr ⟨_, _, rfl, rfl, h1, h2, rfl⟩

theorem AddAll_congr (ms : List (List UInt8)) :
    ∀ f g : BloomFilter, f.m = g.m → f.k = g.k → f.b = g.b →
      (∃ e, AddAll f ms = .error e ∧ AddAll g ms = .error e) ∨
      (∃ f1 g1, AddAll f ms = .ok f1 ∧ AddAll g ms = .ok g1 ∧
        f1.m = g1.m ∧ f1.k = g1.k ∧ f1.b = g1.b) := by
  induction ms with
  | nil =>
    intro f g h1 h2 h3
    exact Or.inr ⟨f, g, rfl, rfl, h1, h2, h3⟩
  | cons x xs ih =>
    intro f g h1 h2 h3
    rcases Add_congr f g x h1 h2 h3 with ⟨e, hf, hg⟩ | ⟨f1, g1, hf, hg, e1, e2, e3⟩
    · left
      refine ⟨e, ?_, ?_⟩
      · simp only [AddAll, hf, bind, Except.bind]
      · simp only [AddAll, hg, bind, Except.bind]
    · have h := ih f1 g1 e1 e2 e3
      simp only [AddAll, hf, hg, bind, Except.bind]
      exact h

/-- C13. Determinism and independence from the reusable hash state: for two
filters with equal `m`, `k` and bit vectors (whatever their hash states),
`Has(member)` gives the same result on both, `Add(member)` fails on both or
leaves both with equal `m`, `k` and bit vectors, and so does every sequence of
`Add` calls; hence equal construction parameters and equal `Add` sequences
give equal bit vectors and equal `Has` results. -/
theorem C13_determinism (f g : BloomFilter) (h1 : f.m = g.m) (h2 : f.k = g.k)
    (h3 : f.b = g.b) (member : List UInt8) (ms : List (List UInt8)) :
    (f.Has member).map Prod.fst = (g.Has member).map Prod.fst ∧
    ((∃ e, f.Add member = .error e ∧ g.Add member = .error e) ∨
      (∃ f1 g1, f.Add member = .ok f1 ∧ g.Add member = .ok g1 ∧
        f1.m = g1.m ∧ f1.k = g1.k ∧ f1.b = g1.b)) ∧
    ((∃ e, AddAll f ms = .error e ∧ AddAll g ms = .error e) ∨
      (∃ f1 g1, AddAll f ms = .ok f1 ∧ AddAll g ms = .ok g1 ∧ f1.b = g1.b ∧
        (f1.Has member).map Prod.fst = (g1.Has member).map Prod.fst)) := by
  refine ⟨Has_congr f g member h1 h2 h3, Add_congr f g member h1 h2 h3, ?_⟩
  rcases AddAll_congr ms f g h1 h2 h3 with ⟨e, hf, hg⟩ | ⟨f1, g1, hf, hg, e1, e2, e3⟩
  · exact Or.inl ⟨e, hf, hg⟩
  · exact Or.inr ⟨f1, g1, hf, hg, e3, Has_congr f1 g1 member e1 e2 e3⟩

/-- Witness of C13 on `NewBloomFilter(10, 0.1)` and the same filter left with
another hash state, member `"x"`, added sequence `"a"`, `"b"`. -/
theorem C13_determinism_witness :
    (NewBloomFilter 10 (1 / 10)).m = otherHashState.m ∧
    (NewBloomFilter 10 (1 / 10)).k = otherHashState.k ∧
    (NewBloomFilter 10 (1 / 10)).b = otherHashState.b ∧
    ((NewBloomFilter 10 (1 / 10)).Has [120]).map Prod.fst
      = (otherHashState.Has [120]).map Prod.fst ∧
    ((∃ e, (NewBloomFilter 10 (1 / 10)).Add [120] = .error e ∧
        otherHashState.Add [120] = .error e) ∨
      (∃ f1 g1, (NewBloomFilter 10 (1 / 10)).Add [120] = .ok f1 ∧
        otherHashState.Add [120] = .ok g1 ∧ f1.m = g1.m ∧ f1.k = g1.k ∧ f1.b = g1.b)) ∧
    ((∃ e, AddAll (NewBloomFilter 10 (1 / 10)) [[97], [98]] = .error e ∧
        AddAll otherHashState [[97], [98]] = .error e) ∨
      (∃ f1 g1, AddAll (NewBloomFilter 10 (1 / 10)) [[97], [98]] = .ok f1 ∧
        AddAll otherHashState [[97], [98]] = .ok g1 ∧ f1.b = g1.b ∧
        (f1.Has [120]).map Prod.fst = (g1.Has [120]).map Prod.fst)) :=
  ⟨rfl, rfl, rfl, C13_determinism _ otherHashState rfl rfl rfl [120] [[97], [98]]⟩

/-! ## Frame of Has, index arithmetic without wrap-around -/

theorem Has_state (f g : BloomFilter) (member : List UInt8) (v : Bool)
    (h : f.Has member = .ok (v, g)) : g = (f.hash member).2 := by
  rw [Has_eq_map] at h
  cases hl : hasLoop (f.hash member).1.1 (f.hash member).1.2 f.M f.K 0 f.b with
  | error e => rw [hl] at h; cases h
  | ok w =>
    rw [hl] at h
    injection h with h
    injection h with _ h2
    exact h2.symm

/-- C19. `Has` is read-only on the membership state: on a filter whose bit
vector has the size `Clear` allocates and with `M() ≥ 1`, `Has(member)`
returns normally and leaves the bit vector and `m`, `k`, `n`, `p` unchanged
(only the hash state changes, to the digest state of `member`), so every later
`Has` call gives the result it would have given before. -/
theorem C19_has_read_only (f : BloomFilter) (member : List UInt8) (hwf : WellFormed f)
    (hM : 1 ≤ f.M) :
    ∃ v g, f.Has member = .ok (v, g) ∧ g.b = f.b ∧ g.m = f.m ∧ g.k = f.k ∧ g.n = f.n ∧
      g.p = f.p ∧ g.H = fnvWrite fnvOffset64 member ∧
      ∀ member2, (g.Has member2).map Prod.fst = (f.Has member2).map Prod.fst := by
  obtain ⟨v, hv, _⟩ := Has_spec f member hwf hM
  refine ⟨v, _, hv, rfl, rfl, rfl, rfl, rfl, rfl, ?_⟩
  intro member2
  exact Has_congr _ f member2 rfl rfl rfl

/-- Witness of C19 on `NewBloomFilter(10, 0.1)` after `SetM(16)`, member `"x"`. -/
theorem C19_has_read_only_witness :
    WellFormed ((NewBloomFilter 10 (1 / 10)).SetM 16) ∧
    1 ≤ ((NewBloomFilter 10 (1 / 10)).SetM 16).M ∧
    ∃ v g, ((NewBloomFilter 10 (1 / 10)).SetM 16).Has [120] = .ok (v, g) ∧
      g.b = ((NewBloomFilter 10 (1 / 10)).SetM 16).b ∧
      g.m = ((NewBloomFilter 10 (1 / 10)).SetM 16).m ∧
      g.k = ((NewBloomFilter 10 (1 / 10)).SetM 16).k ∧
      g.n = ((NewBloomFilter 10 (1 / 10)).SetM 16).n ∧
      g.p = ((NewBloomFilter 10 (1 / 10)).SetM 16).p ∧
      g.H = fnvWrite fnvOffset64 [120] ∧
      ∀ member2, (g.Has member2).map Prod.fst
        = (((NewBloomFilter 10 (1 / 10)).SetM 16).Has member2).map Prod.fst :=
  ⟨Clear_wellFormed _, by rw [SetM_M]; decide,
    C19_has_read_only _ [120] (Clear_wellFormed _) (by rw [SetM_M]; decide)⟩

theorem no_wrap_bound (a b i : Nat) (ha : a < 2 ^ 32) (hb : b < 2 ^ 32) (hi : i < 2 ^ 32) :
    a + b * i < 2 ^ 64 := by
  have h1 : b * i ≤ (2 ^ 32 - 1) * (2 ^ 32 - 1) :=
    Nat.mul_le_mul (by omega) (by omega)
  have h2 : (2 ^ 32 - 1) * (2 ^ 32 - 1) + 2 ^ 32 ≤ 2 ^ 64 := by norm_num
  omega

/-- C20. No wrap-around in the index derivation: with 64-bit `uint`, for a
filter with `K() ≤ 2^32`, every member and every `i < K()`, the value
`a + b * i` is below 2^64, so the machine expression `(a + b * i) % m` of `Add`
and `Has` equals the mathematical `(a + b * i) mod M()`. -/
theorem C20_no_wrap (f : BloomFilter) (member : List UInt8) (hK : f.K ≤ 2 ^ 32) (i : Nat)
    (hi : i < f.K) :
    (f.hash member).1.1 + (f.hash member).1.2 * i < 2 ^ 64 ∧
    (((f.hash member).1.1 + ((f.hash member).1.2 * i) % 2 ^ 64) % 2 ^ 64) % f.M
      = ((f.hash member).1.1 + (f.hash member).1.2 * i) % f.M ∧
    (f.M ≠ 0 → probe (f.hash member).1.1 (f.hash member).1.2 f.M i
      = .ok (((f.hash member).1.1 + (f.hash member).1.2 * i) % f.M)) := by
  obtain ⟨ha, hb⟩ := hash_bounds f member
  have hlt := no_wrap_bound _ _ i ha hb (by omega)
  have heq : (((f.hash member).1.1 + ((f.hash member).1.2 * i) % 2 ^ 64) % 2 ^ 64) % f.M
      = ((f.hash member).1.1 + (f.hash member).1.2 * i) % f.M := by
    rw [Nat.add_mod_mod, Nat.mod_eq_of_lt hlt]
  refine ⟨hlt, heq, ?_⟩
  intro hm
  rw [probe_eq _ _ _ _ hm]
  unfold probeIndex
  rw [heq]

/-- Witness of C20 on `NewBloomFilter(10, 0.1)` after `SetK(3)`, member `"x"`,
iteration `i = 2`. -/
theorem C20_no_wrap_witness :
    ((NewBloomFilter 10 (1 / 10)).SetK 3).K ≤ 2 ^ 32 ∧
    2 < ((NewBloomFilter 10 (1 / 10)).SetK 3).K ∧
    (((NewBloomFilter 10 (1 / 10)).SetK 3).hash [120]).1.1
      + (((NewBloomFilter 10 (1 / 10)).SetK 3).hash [120]).1.2 * 2 < 2 ^ 64 ∧
    ((((NewBloomFilter 10 (1 / 10)).SetK 3).hash [120]).1.1
        + ((((NewBloomFilter 10 (1 / 10)).SetK 3).hash [120]).1.2 * 2) % 2 ^ 64) % 2 ^ 64
        % ((NewBloomFilter 10 (1 / 10)).SetK 3).M
      = ((((NewBloomFilter 10 (1 / 10)).SetK 3).hash [120]).1.1
          + (((NewBloomFilter 10 (1 / 10)).SetK 3).hash [120]).1.2 * 2)
        % ((NewBloomFilter 10 (1 / 10)).SetK 3).M ∧
    (((NewBloomFilter 10 (1 / 10)).SetK 3).M ≠ 0 →
      probe (((NewBloomFilter 10 (1 / 10)).SetK 3).hash [120]).1.1
          (((NewBloomFilter 10 (1 / 10)).SetK 3).hash [120]).1.2
          ((NewBloomFilter 10 (1 / 10)).SetK 3).M 2
        = .ok (((((NewBloomFilter 10 (1 / 10)).SetK 3).hash [120]).1.1
            + (((NewBloomFilter 10 (1 / 10)).SetK 3).hash [120]).1.2 * 2)
          % ((NewBloomFilter 10 (1 / 10)).SetK 3).M)) :=
  ⟨by rw [SetK_K]; decide, by rw [SetK_K]; decide,
    C20_no_wrap _ [120] (by rw [SetK_K]; decide) 2 (by rw [SetK_K]; decide)⟩

/-! ## Length of the bit vector -/

theorem Set_length (bs bs1 : BitSet) (x : Nat) (h : bs.Set x = .ok bs1) :
    bs1.length = bs.length := by
  unfold BitSet.Set at h
  split at h
  · injection h with h
    rw [← h]
    simp
  · cases h

theorem addLoop_length (a b m : Nat) :
    ∀ (r i : Nat) (bs bs1 : BitSet), addLoop a b m r i bs = .ok bs1 →
      bs1.length = bs.length := by
  intro r
  induction r with
  | zero =>
    intro i bs bs1 h
    simp only [addLoop] at h
    injection h with h
    rw [h]
  | succ r ih =>
    intro i bs bs1 h
    simp only [addLoop, bind, Except.bind] at h
    cases hp : probe a b m i with
    | error e => rw [hp] at h; cases h
    | ok x =>
      rw [hp] at h
      simp only at h
      cases hs : bs.Set x with
      | error e => rw [hs] at h; cases h
      | ok bs2 =>
        rw [hs] at h
        simp only at h
        rw [ih (i + 1) bs2 bs1 h, Set_length bs bs2 x hs]

theorem Add_state (f g : BloomFilter) (member : List UInt8) (h : f.Add member = .ok g) :
    g.m = f.m ∧ g.k = f.k ∧ g.n = f.n ∧ g.p = f.p ∧ g.b.length = f.b.length := by
  rw [Add_eq_map] at h
  cases hl : addLoop (f.hash member).1.1 (f.hash member).1.2 f.M f.K 0 f.b with
  | error e => rw [hl] at h; cases h
  | ok bs =>
    rw [hl] at h
    injection h with h
    subst h
    exact ⟨rfl, rfl, rfl, rfl, addLoop_length _ _ _ _ _ _ _ hl⟩

theorem ceil_div_eight (x : ℝ) : ⌈x / 8⌉₊ = (⌈x⌉₊ + 7) / 8 := by
  apply le_antisymm
  · rw [Nat.ceil_le]
    have h1 : x ≤ (⌈x⌉₊ : ℝ) := Nat.le_ceil x
    have h2 : ⌈x⌉₊ ≤ 8 * ((⌈x⌉₊ + 7) / 8) := by omega
    have h3 : (⌈x⌉₊ : ℝ) ≤ 8 * (((⌈x⌉₊ + 7) / 8 : ℕ) : ℝ) := by exact_mod_cast h2
    linarith
  · have h1 : x / 8 ≤ (⌈x / 8⌉₊ : ℝ) := Nat.le_ceil _
    have h2 : ⌈x⌉₊ ≤ 8 * ⌈x / 8⌉₊ := by
      rw [Nat.ceil_le]
      push_cast
      linarith
    omega

theorem ReachableAny_wellFormed (f : BloomFilter) (h : ReachableAny f) : WellFormed f := by
  induction h with
  | new n p hn hp0 hp1 => exact Clear_wellFormed _
  | add f g member _ hadd ih =>
    obtain ⟨hm, _, _, _, hlen⟩ := Add_state f g member hadd
    unfold WellFormed at ih ⊢
    rw [hlen, hm, ih]
  | has f g member v _ hhas ih =>
    rw [Has_state f g member v hhas]
    exact ih
  | clear f _ _ => exact Clear_wellFormed f
  | setK f k _ _ => exact Clear_wellFormed _
  | setM f m _ _ => exact Clear_wellFormed _

/-- C15. Bit-vector length invariant: in every state reachable from a valid
`NewBloomFilter` by `Add`, `Has`, `Clear`, `SetK` and `SetM`, the number of
bits of the vector, `8 * len(b)`, is `M()` rounded up to the next multiple of
8, hence at least `M()` and less than `M() + 8`; `Add` and `Has` return a
filter with the same length. -/
theorem C15_length_invariant (f : BloomFilter) (hf : ReachableAny f) :
    8 * f.b.length = 8 * ((f.M + 7) / 8) ∧ f.M ≤ 8 * f.b.length ∧
    8 * f.b.length < f.M + 8 ∧
    (∀ member g, f.Add member = .ok g → g.b.length = f.b.length) ∧
    (∀ member v g, f.Has member = .ok (v, g) → g.b.length = f.b.length) := by
  have hwf := ReachableAny_wellFormed f hf
  have hlen : f.b.length = (f.M + 7) / 8 := by
    unfold WellFormed at hwf
    rw [hwf]
    exact ceil_div_eight f.m
  refine ⟨by rw [hlen], by omega, by omega, ?_, ?_⟩
  · intro member g h
    exact (Add_state f g member h).2.2.2.2
  · intro member v g h
    rw [Has_state f g member v h]
    rfl

/-- Witness of C15 on `NewBloomFilter(100, 0.01)` after `SetM(0)`, `SetM(13)`. -/
theorem C15_length_invariant_witness :
    ReachableAny (((NewBloomFilter 100 (1 / 100)).SetM 0).SetM 13) ∧
    8 * (((NewBloomFilter 100 (1 / 100)).SetM 0).SetM 13).b.length
      = 8 * (((((NewBloomFilter 100 (1 / 100)).SetM 0).SetM 13).M + 7) / 8) ∧
    (((NewBloomFilter 100 (1 / 100)).SetM 0).SetM 13).M
      ≤ 8 * (((NewBloomFilter 100 (1 / 100)).SetM 0).SetM 13).b.length ∧
    8 * (((NewBloomFilter 100 (1 / 100)).SetM 0).SetM 13).b.length
      < (((NewBloomFilter 100 (1 / 100)).SetM 0).SetM 13).M + 8 ∧
    (∀ member g, (((NewBloomFilter 100 (1 / 100)).SetM 0).SetM 13).Add member = .ok g →
      g.b.length = (((NewBloomFilter 100 (1 / 100)).SetM 0).SetM 13).b.length) ∧
    (∀ member v g, (((NewBloomFilter 100 (1 / 100)).SetM 0).SetM 13).Has member = .ok (v, g) →
      g.b.length = (((NewBloomFilter 100 (1 / 100)).SetM 0).SetM 13).b.length) :=
  ⟨ReachableAny.setM _ 13 (ReachableAny.setM _ 0
      (ReachableAny.new 100 (1 / 100) (by norm_num) (by norm_num) (by norm_num))),
    C15_length_invariant _ (ReachableAny.setM _ 13 (ReachableAny.setM _ 0
      (ReachableAny.new 100 (1 / 100) (by norm_num) (by norm_num) (by norm_num))))⟩

/-! ## The estimated false-positive rate -/

theorem CalculateP_eq (f : BloomFilter) :
    f.CalculateP = (1 - Real.exp (-f.k * f.n / f.m)) ^ f.k := by
  unfold BloomFilter.CalculateP
  rw [Real.exp_one_rpow]

theorem CalculateP_fresh (n : Int) (p : ℝ) (hn : 1 ≤ n) (hp0 : 0 < p) (hp1 : p < 1) :
    (NewBloomFilter n p).CalculateP = p := by
  have hn0 : ((n : ℝ)) ≠ 0 := by
    have : (1 : ℝ) ≤ (n : ℝ) := by exact_mod_cast hn
    linarith
  have hm := NewBloomFilter_m_pos n p hn hp0 hp1
  have hm0 : (NewBloomFilter n p).m ≠ 0 := ne_of_gt hm
  have h2 : 0 < Real.log 2 := Real.log_pos (by norm_num)
  have hn' : (NewBloomFilter n p).n = (n : ℝ) := rfl
  have hexp : -(NewBloomFilter n p).k * (NewBloomFilter n p).n / (NewBloomFilter n p).m
      = -Real.log 2 := by
    rw [NewBloomFilter_k, hn']
    field_simp
    ring
  rw [CalculateP_eq, hexp, Real.exp_neg, Real.exp_log (by norm_num : (0 : ℝ) < 2)]
  have hhalf : (1 : ℝ) - 2⁻¹ = 2⁻¹ := by norm_num
  rw [hhalf, Real.rpow_def_of_pos (by norm_num), Real.log_inv,
    NewBloomFilter_k_eq n p (by omega)]
  have : -Real.log 2 * (-Real.log p / Real.log 2) = Real.log p := by
    field_simp
  rw [this, Real.exp_log hp0]

/-- C17. In exact real arithmetic, for `n ≥ 1` and `0 < p < 1` the freshly
constructed filter satisfies `CalculateP() = p`. -/
theorem C17_fresh_rate_is_p (n : Int) (p : ℝ) (hn : 1 ≤ n) (hp0 : 0 < p) (hp1 : p < 1) :
    (NewBloomFilter n p).CalculateP = p ∧
    1 - Real.exp (-(NewBloomFilter n p).k * (NewBloomFilter n p).n / (NewBloomFilter n p).m)
      = 1 / 2 := by
  refine ⟨CalculateP_fresh n p hn hp0 hp1, ?_⟩
  have hn0 : ((n : ℝ)) ≠ 0 := by
    have : (1 : ℝ) ≤ (n : ℝ) := by exact_mod_cast hn
    linarith
  have hm0 : (NewBloomFilter n p).m ≠ 0 := ne_of_gt (NewBloomFilter_m_pos n p hn hp0 hp1)
  have hn' : (NewBloomFilter n p).n = (n : ℝ) := rfl
  have hexp : -(NewBloomFilter n p).k * (NewBloomFilter n p).n / (NewBloomFilter n p).m
      = -Real.log 2 := by
    rw [NewBloomFilter_k, hn']
    field_simp
    ring
  rw [hexp, Real.exp_neg, Real.exp_log (by norm_num : (0 : ℝ) < 2)]
  norm_num

/-- Witness of C17 at `NewBloomFilter(50000, 0.01)`. -/
theorem C17_fresh_rate_is_p_witness :
    (NewBloomFilter 50000 (1 / 100)).CalculateP = 1 / 100 ∧
    1 - Real.exp (-(NewBloomFilter 50000 (1 / 100)).k * (NewBloomFilter 50000 (1 / 100)).n
        / (NewBloomFilter 50000 (1 / 100)).m) = 1 / 2 :=
  C17_fresh_rate_is_p 50000 (1 / 100) (by norm_num) (by norm_num) (by norm_num)

theorem exp_two_thirds_lt : Real.exp (2 / 3) < 2 := by
  have h : (2 / 3 : ℝ) < Real.log 2 := by
    have := Real.log_two_gt_d9
    linarith
  calc Real.exp (2 / 3) < Real.exp (Real.log 2) := Real.exp_lt_exp.2 h
    _ = 2 := Real.exp_log (by norm_num)

/-- C12, counterexample. For `NewBloomFilter(1, 0.3125)` (`K() = 2`,
`M() = 3`, `n = 1`) `CalculateP()` is `0.3125`, while the formula evaluated at
the reported `K()` and `M()`, `(1 - e^(-2 * 1 / 3))^2`, is below `0.25`. -/
theorem C12_counterexample :
    (NewBloomFilter 1 (5 / 16)).K = 2 ∧ (NewBloomFilter 1 (5 / 16)).M = 3 ∧
    (NewBloomFilter 1 (5 / 16)).CalculateP = 5 / 16 ∧
    (1 - (Real.exp 1) ^ (-((NewBloomFilter 1 (5 / 16)).K : ℝ) * (NewBloomFilter 1 (5 / 16)).n
        / ((NewBloomFilter 1 (5 / 16)).M : ℝ))) ^ ((NewBloomFilter 1 (5 / 16)).K : ℝ) < 1 / 4 ∧
    (NewBloomFilter 1 (5 / 16)).CalculateP
      ≠ (1 - (Real.exp 1) ^ (-((NewBloomFilter 1 (5 / 16)).K : ℝ) * (NewBloomFilter 1 (5 / 16)).n
        / ((NewBloomFilter 1 (5 / 16)).M : ℝ))) ^ ((NewBloomFilter 1 (5 / 16)).K : ℝ) := by
  have hM : (NewBloomFilter 1 (5 / 16)).M = 3 := by
    obtain ⟨h1, h2⟩ := skew_instance_m
    unfold BloomFilter.M
    exact ceil_of_bounds _ 2 (by exact_mod_cast h1) (by norm_num; exact h2)
  have hK : (NewBloomFilter 1 (5 / 16)).K = 2 := by
    obtain ⟨h1, h2⟩ := skew_instance_k
    unfold BloomFilter.K
    exact ceil_of_bounds _ 1 (by exact_mod_cast h1) (by norm_num; exact h2)
  have hP : (NewBloomFilter 1 (5 / 16)).CalculateP = 5 / 16 :=
    CalculateP_fresh 1 (5 / 16) (by norm_num) (by norm_num) (by norm_num)
  have hn : (NewBloomFilter 1 (5 / 16)).n = 1 := by
    show ((1 : Int) : ℝ) = 1
    norm_num
  have hlt : (1 - (Real.exp 1) ^ (-((NewBloomFilter 1 (5 / 16)).K : ℝ)
      * (NewBloomFilter 1 (5 / 16)).n / ((NewBloomFilter 1 (5 / 16)).M : ℝ)))
      ^ ((NewBloomFilter 1 (5 / 16)).K : ℝ) < 1 / 4 := by
    rw [hK, hM, hn, Real.exp_one_rpow]
    have e1 : (-((2 : ℕ) : ℝ) * 1 / ((3 : ℕ) : ℝ)) = -(2 / 3) := by norm_num
    have e2 : (((2 : ℕ) : ℝ)) = 2 := by norm_num
    rw [e1, e2, Real.rpow_two, Real.exp_neg]
    have hlt2 := exp_two_thirds_lt
    have hgt1 : 1 < Real.exp (2 / 3) := by
      have := Real.add_one_lt_exp (by norm_num : (2 / 3 : ℝ) ≠ 0)
      linarith
    have hinv1 : (Real.exp (2 / 3))⁻¹ < 1 := inv_lt_one_of_one_lt₀ hgt1
    have hinv2 : (1 / 2 : ℝ) < (Real.exp (2 / 3))⁻¹ := by
      rw [one_div]
      exact (inv_lt_inv₀ (by norm_num) (by linarith)).2 hlt2
    nlinarith
  refine ⟨hK, hM, hP, hlt, ?_⟩
  rw [hP]
  intro h
  rw [← h] at hlt
  norm_num at hlt

/-- C12 (amended). `CalculateP()` returns `(1 - e^(-k * n / m))^k` where `k`
and `m` are the filter's internal unrounded values of the hash-function count
and the bit count (`K()` and `M()` are their ceilings) and `n` is the expected
element count; once both have been overridden by `SetM` and `SetK` they are the
integers `M()` and `K()`. -/
theorem C12_estimated_rate (f : BloomFilter) (m k : Nat) :
    f.CalculateP = (1 - Real.exp (-f.k * f.n / f.m)) ^ f.k ∧
    ((f.SetM m).SetK k).CalculateP
      = (1 - Real.exp (-(((f.SetM m).SetK k).K : ℝ) * ((f.SetM m).SetK k).n
          / (((f.SetM m).SetK k).M : ℝ))) ^ (((f.SetM m).SetK k).K : ℝ) := by
  refine ⟨CalculateP_eq f, ?_⟩
  rw [CalculateP_eq, SetK_K, SetK_M, SetM_M]
  rfl

/-! ## Add commutes -/

theorem Set_eq_setRaw (bs : BitSet) (x : Nat) (h : x / 8 < bs.length) :
    bs.Set x = .ok (setRaw bs x) := by
  unfold BitSet.Set setRaw
  simp only [h, dite_true]
  rw [List.getD_eq_getElem bs 0 h]

theorem setRaw_length (bs : BitSet) (x : Nat) : (setRaw bs x).length = bs.length := by
  simp [setRaw]

theorem byte_or_comm (v a b : Nat) :
    ((v ||| a) % 256 ||| b) % 256 = ((v ||| b) % 256 ||| a) % 256 := by
  have h256 : (256 : Nat) = 2 ^ 8 := by norm_num
  apply Nat.eq_of_testBit_eq
  intro j
  rw [h256]
  simp only [Nat.testBit_mod_two_pow, Nat.testBit_or]
  cases decide (j < 8) <;> cases v.testBit j <;> cases a.testBit j <;> cases b.testBit j <;> rfl

theorem setRaw_comm (bs : BitSet) (x y : Nat) :
    setRaw (setRaw bs x) y = setRaw (setRaw bs y) x := by
  unfold setRaw
  by_cases hq : x / 8 = y / 8
  · rw [hq]
    by_cases hlen : y / 8 < bs.length
    · have hl1 : ∀ v, y / 8 < (bs.set (y / 8) v).length := by
        intro v; simpa using hlen
      rw [List.getD_eq_getElem _ 0 (hl1 _), List.getD_eq_getElem _ 0 (hl1 _),
        List.getD_eq_getElem bs 0 hlen]
      simp only [List.getElem_set_self, List.set_set]
      rw [byte_or_comm]
    · have hge : bs.length ≤ y / 8 := by omega
      simp only [List.set_eq_of_length_le hge]
  · have hq2 : ¬ y / 8 = x / 8 := fun e => hq e.symm
    simp only [List.getD_eq_getElem?_getD]
    rw [List.getElem?_set_ne hq, List.getElem?_set_ne hq2]
    exact List.set_comm _ _ bs hq

theorem foldl_setRaw_length (xs : List Nat) :
    ∀ bs : BitSet, (xs.foldl setRaw bs).length = bs.length := by
  induction xs with
  | nil => intro bs; rfl
  | cons x xs ih =>
    intro bs
    rw [List.foldl_cons, ih, setRaw_length]

theorem addLoop_eq_foldl (a b m : Nat) (hm : m ≠ 0) :
    ∀ (r i : Nat) (bs : BitSet), m ≤ 8 * bs.length →
      addLoop a b m r i bs
        = .ok (((List.range' i r).map (probeIndex a b m)).foldl setRaw bs) := by
  intro r
  induction r with
  | zero =>
    intro i bs _
    rfl
  | succ r ih =>
    intro i bs hlen
    have hx : probeIndex a b m i / 8 < bs.length :=
      index_in_range bs m _ hlen (probeIndex_lt a b m i hm)
    simp only [addLoop, probe_eq a b m i hm, Set_eq_setRaw bs _ hx, bind, Except.bind]
    rw [ih (i + 1) (setRaw bs (probeIndex a b m i)) (by rw [setRaw_length]; exact hlen)]
    rfl

theorem Add_eq_foldl (f : BloomFilter) (member : List UInt8) (hwf : WellFormed f)
    (hM : 1 ≤ f.M) :
    f.Add member = .ok { (f.hash member).2 with
      b := (probes (f.hash member).1.1 (f.hash member).1.2 f.M f.K).foldl setRaw f.b } := by
  rw [Add_eq_map, addLoop_eq_foldl _ _ _ (by omega) _ _ _ (M_le_bits f hwf)]
  rfl

theorem foldl_setRaw_perm (xs ys : List Nat) (h : xs.Perm ys) (bs : BitSet) :
    xs.foldl setRaw bs = ys.foldl setRaw bs :=
  List.Perm.foldl_eq' h (fun x _ y _ z => setRaw_comm z x y) bs

theorem AddAll_eq_foldl (ms : List (List UInt8)) :
    ∀ f : BloomFilter, WellFormed f → 1 ≤ f.M →
      ∃ g, AddAll f ms = .ok g ∧ g.b = (ms.flatMap (memberProbes f)).foldl setRaw f.b := by
  induction ms with
  | nil =>
    intro f _ _
    exact ⟨f, rfl, rfl⟩
  | cons x xs ih =>
    intro f hwf hM
    have hadd := Add_eq_foldl f x hwf hM
    have hwf1 : WellFormed { (f.hash x).2 with
        b := (probes (f.hash x).1.1 (f.hash x).1.2 f.M f.K).foldl setRaw f.b } := by
      unfold WellFormed
      show ((probes (f.hash x).1.1 (f.hash x).1.2 f.M f.K).foldl setRaw f.b).length = _
      rw [foldl_setRaw_length]
      exact hwf
    obtain ⟨g, hg, hb⟩ := ih _ hwf1 hM
    refine ⟨g, ?_, ?_⟩
    · simp only [AddAll, hadd, bind, Except.bind]
      exact hg
    · rw [hb, List.flatMap_cons, List.foldl_append]
      rfl

/-- C18. `Add` commutes: on a filter whose bit vector has the size `Clear`
allocates and with `M() ≥ 1`, `Add(x)` then `Add(y)` and `Add(y)` then
`Add(x)` all return normally and leave the same bit vector, byte for byte; more
generally two sequences of `Add` calls that are permutations of each other
leave the same bit vector. -/
theorem C18_add_commutes (f : BloomFilter) (hwf : WellFormed f) (hM : 1 ≤ f.M)
    (x y : List UInt8) (ms1 ms2 : List (List UInt8)) (hperm : ms1.Perm ms2) :
    (∃ g1 g2 h1 h2, f.Add x = .ok g1 ∧ g1.Add y = .ok g2 ∧ f.Add y = .ok h1 ∧
      h1.Add x = .ok h2 ∧ g2.b = h2.b) ∧
    (∃ g h, AddAll f ms1 = .ok g ∧ AddAll f ms2 = .ok h ∧ g.b = h.b) := by
  constructor
  · have hx := Add_eq_foldl f x hwf hM
    have hy := Add_eq_foldl f y hwf hM
    have hwfx : WellFormed { (f.hash x).2 with
        b := (probes (f.hash x).1.1 (f.hash x).1.2 f.M f.K).foldl setRaw f.b } := by
      unfold WellFormed
      show ((probes (f.hash x).1.1 (f.hash x).1.2 f.M f.K).foldl setRaw f.b).length = _
      rw [foldl_setRaw_length]
      exact hwf
    have hwfy : WellFormed { (f.hash y).2 with
        b := (probes (f.hash y).1.1 (f.hash y).1.2 f.M f.K).foldl setRaw f.b } := by
      unfold WellFormed
      show ((probes (f.hash y).1.1 (f.hash y).1.2 f.M f.K).foldl setRaw f.b).length = _
      rw [foldl_setRaw_length]
      exact hwf
    have hxy := Add_eq_foldl _ y hwfx hM
    have hyx := Add_eq_foldl _ x hwfy hM
    refine ⟨_, _, _, _, hx, hxy, hy, hyx, ?_⟩
    show List.foldl setRaw (List.foldl setRaw f.b (memberProbes f x)) (memberProbes f y)
      = List.foldl setRaw (List.foldl setRaw f.b (memberProbes f y)) (memberProbes f x)
    rw [← List.foldl_append, ← List.foldl_append]
    exact foldl_setRaw_perm _ _ List.perm_append_comm f.b
  · obtain ⟨g, hg, hgb⟩ := AddAll_eq_foldl ms1 f hwf hM
    obtain ⟨h, hh, hhb⟩ := AddAll_eq_foldl ms2 f hwf hM
    refine ⟨g, h, hg, hh, ?_⟩
    rw [hgb, hhb]
    exact foldl_setRaw_perm _ _ (List.Perm.flatMap_right _ hperm) f.b

/-- Witness of C18 on `NewBloomFilter(10, 0.1)` after `SetM(16)`, members `"x"`
and `"y"`. -/
theorem C18_add_commutes_witness :
    WellFormed ((NewBloomFilter 10 (1 / 10)).SetM 16) ∧
    1 ≤ ((NewBloomFilter 10 (1 / 10)).SetM 16).M ∧
    List.Perm [[120], [121], [122]] [[122], [120], [121]] ∧
    (∃ g1 g2 h1 h2, ((NewBloomFilter 10 (1 / 10)).SetM 16).Add [120] = .ok g1 ∧
      g1.Add [121] = .ok g2 ∧ ((NewBloomFilter 10 (1 / 10)).SetM 16).Add [121] = .ok h1 ∧
      h1.Add [120] = .ok h2 ∧ g2.b = h2.b) ∧
    (∃ g h, AddAll ((NewBloomFilter 10 (1 / 10)).SetM 16) [[120], [121], [122]] = .ok g ∧
      AddAll ((NewBloomFilter 10 (1 / 10)).SetM 16) [[122], [120], [121]] = .ok h ∧
      g.b = h.b) :=
  ⟨Clear_wellFormed _, by rw [SetM_M]; decide, by decide,
    C18_add_commutes ((NewBloomFilter 10 (1 / 10)).SetM 16) (Clear_wellFormed _)
      (by rw [SetM_M]; decide) [120] [121]
      [[120], [121], [122]] [[122], [120], [121]] (by decide)⟩

/-! ## Overrides and the rounding of their argument -/

example : (BloomFilter.hash ⟨0,0,0,0,[],0⟩ []).1 = (0xcbf29ce4, 0x84222325) := by decide
example : (NewBitSet 2).Set 9 = .ok [0, 2] := by decide
example : BitSet.Get [0, 2] 9 = .ok true := by decide
example : addLoop 3 5 16 3 0 (NewBitSet 2) = .ok [8, 33] := by decide
example : hasLoop 3 5 16 3 0 [8, 33] = .ok true := by decide

end Bloomfilter
